import Mathlib

/-!
MyCache: LRU cache, consistent-hash ring and group read path.

A shallow embedding of the Go sources

* `LRU/lru.go`                     (namespace `LRU`)
* `ConsistenHash/consistenhash.go` (namespace `ConsistenHash`)
* `Singleflight/singleFlight.go`   (namespace `Singleflight`)
* `byteview.go`, `reslovecache.go`, and the URL handling of `http.go`
  (namespace `MyCache`)

together with the properties of these programs that are established below.

Conventions of the embedding.

* A Go `string` is a Lean `String`; Go's `len(s)` is the number of bytes,
  `String.utf8ByteSize`.
* `int64` byte counters are `Int`.  Every counter below is a sum of lengths
  of objects that are simultaneously held in memory, so it stays far from
  `2^63` and no wrap-around is modelled.
* A `*list.Element` is identified by a number `id` that `PushBack` draws from
  an allocation counter; `container/list` is a Lean list whose head is the
  front of the Go list.  The front is the least recently used end, the back
  the most recently used end.
* A Go `map[K]V` is a function `K → Option V`.
* A Go `int` has 64 bits, so that `int(x)` of a `uint32` is `x`.
* A call that need not return has an `Option` result, `none` for a call that
  does not return.  Loops run on fuel; lemmas show that the fuel handed over by
  the callers is enough whenever the Go loop terminates at all.
-/

/-! ## The programs -/

namespace LRU

variable {V : Type}

/-- The Go interface `Value`: anything with a `Len()` method.  All
implementations in the repository return the `len` of a string or of a byte
slice, hence a natural number. -/
class Value (V : Type) where
  /-- The method `Len() int`. -/
  Len : V → Nat

/-- The test type `type String string` of `lru_test.go`, `Len` is `len(d)`. -/
instance : Value String where
  Len d := d.utf8ByteSize

/-- One `list.Element` together with the `*entry` stored in its `Value`
field: `id` stands for the address of the element. -/
structure Element (V : Type) where
  id : Nat
  key : String
  value : V

/-- The struct `Cache`.  `onEvicted` records whether the callback is non-nil;
the calls made to it are appended to `evicted` (the callback must not re-enter
the cache, so its only effect on the cache is having been called).  `nextId`
is the address counter of `PushBack`. -/
structure Cache (V : Type) where
  maxBytes : Int
  nBytes : Int
  ll : List (Element V)
  cache : String → Option Nat
  onEvicted : Bool
  evicted : List (String × V)
  nextId : Nat

/-- The function `New`. -/
def New (maxBytes : Int) (onEvicted : Bool) : Cache V :=
  { maxBytes := maxBytes, nBytes := 0, ll := [], cache := fun _ => none,
    onEvicted := onEvicted, evicted := [], nextId := 0 }

/-- Dereference an element address inside the list. -/
def find (ll : List (Element V)) (id : Nat) : Option (Element V) :=
  ll.find? (fun e => e.id == id)

/-- The list left when the element with address `id` is unlinked. -/
def unlink (ll : List (Element V)) (id : Nat) : List (Element V) :=
  ll.filter (fun e => e.id != id)

/-- The method `MoveToBack` of `container/list`: an element that is not in
the list leaves the list unchanged. -/
def MoveToBack (ll : List (Element V)) (id : Nat) : List (Element V) :=
  match find ll id with
  | some e => unlink ll id ++ [e]
  | none => ll

/-- The method `Cache.Get`; the result `none` is Go's `(nil, false)`.
The inner `none` branch (the map holds an element that left the list) keeps
the state and reports a miss; `Inv` below shows it is never taken. -/
def Get (c : Cache V) (key : String) : Cache V × Option V :=
  match c.cache key with
  | some id =>
    match find c.ll id with
    | some e => ({ c with ll := MoveToBack c.ll id }, some e.value)
    | none => (c, none)
  | none => (c, none)

/-- The method `Cache.RemoveOldest`. -/
def RemoveOldest [Value V] (c : Cache V) : Cache V :=
  match c.ll with
  | [] => c
  | e :: rest =>
    { c with
      ll := rest
      cache := fun k => if k = e.key then none else c.cache k
      nBytes := c.nBytes - ((e.key.utf8ByteSize : Int) + (Value.Len e.value : Int))
      evicted := if c.onEvicted then c.evicted ++ [(e.key, e.value)] else c.evicted }

/-- The loop `for c.maxBytes != 0 && c.maxBytes < c.nBytes { c.RemoveOldest() }`
of `Cache.Add`, run for at most `fuel` evaluations of its condition. -/
def evictLoop [Value V] : Nat → Cache V → Option (Cache V)
  | 0, _ => none
  | fuel + 1, c =>
    if c.maxBytes ≠ 0 ∧ c.maxBytes < c.nBytes then evictLoop fuel (RemoveOldest c)
    else some c

/-- The part of `Cache.Add` before the eviction loop.  As in `Get`, the inner
`none` branch stands for an element that the map holds and the list does not;
`Inv` shows it is never taken. -/
def addEntry [Value V] (c : Cache V) (key : String) (value : V) : Cache V :=
  match c.cache key with
  | some id =>
    match find c.ll id with
    | some e =>
      { c with
        ll := unlink c.ll id ++ [{ e with value := value }]
        nBytes := c.nBytes + ((Value.Len value : Int) - (Value.Len e.value : Int)) }
    | none => c
  | none =>
    { c with
      ll := c.ll ++ [{ id := c.nextId, key := key, value := value }]
      cache := fun k => if k = key then some c.nextId else c.cache k
      nBytes := c.nBytes + ((key.utf8ByteSize : Int) + (Value.Len value : Int))
      nextId := c.nextId + 1 }

/-- The method `Cache.Add`.  The loop gets one unit of fuel per list element
and one more: every iteration that finds the list non-empty removes an element,
and an iteration that finds it empty changes nothing, so that the loop either
stops within that many tests or never (`evictLoop_fuel`, `evictLoop_stuck`).
The result `none` therefore means that the Go call does not return. -/
def Add [Value V] (c : Cache V) (key : String) (value : V) : Option (Cache V) :=
  let c1 := addEntry c key value
  evictLoop (c1.ll.length + 1) c1

/-- The method `Cache.Len`. -/
def Len (c : Cache V) : Nat := c.ll.length

/-- The operations of the cache, to speak about sequences of calls. -/
inductive Op (V : Type) where
  | add (key : String) (value : V)
  | get (key : String)
  | removeOldest

/-- One call on the cache; `none` when the call does not return. -/
def step [Value V] (c : Cache V) : Op V → Option (Cache V)
  | .add k v => Add c k v
  | .get k => some (Get c k).1
  | .removeOldest => some (RemoveOldest c)

/-- A sequence of calls, first call first. -/
def run [Value V] (c : Cache V) : List (Op V) → Option (Cache V)
  | [] => some c
  | op :: ops => (step c op).bind (fun c1 => run c1 ops)

/-- States that some sequence of calls reaches from `New`. -/
def Reachable [Value V] (c : Cache V) : Prop :=
  ∃ (maxBytes : Int) (onEvicted : Bool) (ops : List (Op V)),
    run (New maxBytes onEvicted) ops = some c

/-- The bytes an entry is charged: `len(key) + value.Len()`. -/
def entrySize [Value V] (e : Element V) : Int :=
  (e.key.utf8ByteSize : Int) + (Value.Len e.value : Int)

/-- The bytes charged for a list of entries. -/
def totalSize [Value V] (ll : List (Element V)) : Int :=
  (ll.map entrySize).sum

/-- The key `k` is resident: the index has it. -/
def Resident (c : Cache V) (k : String) : Prop := (c.cache k).isSome = true

instance (c : Cache V) (k : String) : Decidable (Resident c k) :=
  inferInstanceAs (Decidable ((c.cache k).isSome = true))

/-- The keys on which `Add` was called in a sequence of calls. -/
def addedKeys : List (Op V) → List String
  | [] => []
  | .add k _ :: ops => k :: addedKeys ops
  | _ :: ops => addedKeys ops

/-- The representation invariant of `Cache`: element addresses and keys are
not repeated in the list, the index holds exactly the addresses of the listed
entries under their keys, addresses are older than the allocation counter, and
`nBytes` is the sum of the entry sizes. -/
structure Inv [Value V] (c : Cache V) : Prop where
  ids : (c.ll.map (fun e => e.id)).Nodup
  keys : (c.ll.map (fun e => e.key)).Nodup
  index : ∀ k id, c.cache k = some id ↔ ∃ e ∈ c.ll, e.key = k ∧ e.id = id
  fresh : ∀ e ∈ c.ll, e.id < c.nextId
  bytes : c.nBytes = totalSize c.ll

/-- The keys and addresses of a list, which is all the index depends on. -/
def shape (ll : List (Element V)) : List (String × Nat) :=
  ll.map (fun e => (e.key, e.id))

/-- What the eviction loop does to a state: it drops a front segment of the
list (`dropped`), erases those keys from the index, reports each dropped entry
to the callback in list order, stops as soon as the budget holds and not
later. -/
structure Evicted [Value V] (c : Cache V) (dropped : List (Element V)) (c1 : Cache V) :
    Prop where
  ll : c.ll = dropped ++ c1.ll
  maxBytes : c1.maxBytes = c.maxBytes
  onEvicted : c1.onEvicted = c.onEvicted
  nextId : c1.nextId = c.nextId
  evicted : c1.evicted =
    c.evicted ++ (if c.onEvicted then dropped.map (fun e => (e.key, e.value)) else [])
  cache : ∀ k, c1.cache k = if k ∈ dropped.map (fun e => e.key) then none else c.cache k
  fits : c.maxBytes = 0 ∨ c1.nBytes ≤ c.maxBytes
  longest : ∀ d1 d2, dropped = d1 ++ d2 → d2 ≠ [] →
    c.maxBytes ≠ 0 ∧ c.maxBytes < totalSize (d2 ++ c1.ll)

/-- The entries of the list as (key, value) pairs, least recently used first. -/
def entries (ll : List (Element V)) : List (String × V) :=
  ll.map (fun e => (e.key, e.value))

/-- The bytes charged for a list of (key, value) pairs. -/
def pairsSize [Value V] (ps : List (String × V)) : Int :=
  (ps.map (fun p => (p.1.utf8ByteSize : Int) + (Value.Len p.2 : Int))).sum

/-- The state that the calls of `TestRemoveOldest` leave behind, with a
callback installed. -/
def testCache : Cache String :=
  (run (New 20 true) [.add "key1" "value1", .add "key2" "value2", .add "k3" "v3"]).getD
    (New 20 true)

/-- The state of `TestRemoveOldest` before its third `Add`, with a callback. -/
def testCache2 : Cache String :=
  (run (New 20 true) [.add "key1" "value1", .add "key2" "value2"]).getD (New 20 true)

/-- The loop condition of `Cache.Add`: a maximum is set and exceeded. -/
def overBudget (c : Cache V) : Prop := c.maxBytes ≠ 0 ∧ c.maxBytes < c.nBytes

/-- The value of the last `Add` of key `k` in a sequence of calls. -/
def latest : List (Op V) → String → Option V
  | [], _ => none
  | .add key value :: ops, k =>
    match latest ops k with
    | some v => some v
    | none => if k = key then some value else none
  | _ :: ops, k => latest ops k

/-- The call is `RemoveOldest`. -/
def Op.isRemoveOldest : Op V → Bool
  | .removeOldest => true
  | _ => false

end LRU

namespace ConsistenHash

/-- The type `Hash`, `func(data []byte) uint32`, applied to the bytes of a
string.  The result is brought into the range of `uint32` where it is used. -/
abbrev Hash := String → Nat

/-- One step of the bitwise CRC-32 (IEEE polynomial, reflected). -/
def crcBit (crc : Nat) : Nat :=
  if crc % 2 = 1 then (crc / 2) ^^^ 0xEDB88320 else crc / 2

/-- Feed one byte into the CRC register. -/
def crcByte (crc : Nat) (b : UInt8) : Nat :=
  crcBit (crcBit (crcBit (crcBit (crcBit (crcBit (crcBit (crcBit (crc ^^^ b.toNat))))))))

/-- The standard library function `crc32.ChecksumIEEE`. -/
def ChecksumIEEE (data : String) : Nat :=
  (data.toUTF8.data.toList.foldl crcByte 0xFFFFFFFF) ^^^ 0xFFFFFFFF

/-- The struct `Map`.  The positions in `keys` are `int(m.hash(...))`, numbers
below `2^32`; a key that `hashMap` does not hold reads as `""` in Go. -/
structure Map where
  hash : Hash
  replicas : Int
  keys : List Nat
  hashMap : Nat → Option String

/-- The function `New`; `fn = none` is a nil hash function. -/
def New (replicas : Int) (fn : Option Hash) : Map :=
  { replicas := replicas, hash := fn.getD ChecksumIEEE, keys := [], hashMap := fun _ => none }

/-- The body of the inner loop of `Map.Add`, for member `key` and replica `i`. -/
def addReplica (m : Map) (key : String) (i : Nat) : Map :=
  let hash := m.hash (key ++ Nat.repr i) % 4294967296
  { m with
    keys := m.keys ++ [hash]
    hashMap := fun h => if h = hash then some key else m.hashMap h }

/-- The inner loop of `Map.Add`: `for i := 0; i < m.replicas; i++`. -/
def addMember (m : Map) (key : String) : Map :=
  (List.range m.replicas.toNat).foldl (fun m i => addReplica m key i) m

/-- The method `Map.Add`; `sort.Ints` is the sorted rearrangement of the slice. -/
def Add (m : Map) (keys : List String) : Map :=
  let m1 := keys.foldl addMember m
  { m1 with keys := m1.keys.insertionSort (· ≤ ·) }

/-- The loop `for i < j` of the standard library function `sort.Search`, with
`h := int(uint(i+j) >> 1)`. -/
def searchLoop (f : Nat → Option Bool) : Nat → Nat → Nat → Option Nat
  | 0, i, _ => some i
  | fuel + 1, i, j =>
    if i < j then
      let h := (i + j) / 2
      match f h with
      | none => none
      | some true => searchLoop f fuel i h
      | some false => searchLoop f fuel (h + 1) j
    else some i

/-- The standard library function `sort.Search`; `none` when `f` panics.  The
distance `j - i` starts at `n` and shrinks in every iteration, so `n` units of
fuel are never used up (`searchLoop_fuel`). -/
def Search (n : Nat) (f : Nat → Option Bool) : Option Nat :=
  searchLoop f n 0 n

/-- The method `Map.Get`; `none` is an index-out-of-range panic. -/
def Get (m : Map) (key : String) : Option String :=
  if m.keys.length = 0 then some ""
  else
    let hash := m.hash key % 4294967296
    match Search m.keys.length (fun i => (m.keys[i]?).map (fun k => decide (k ≥ hash))) with
    | none => none
    | some idx =>
      match m.keys[idx % m.keys.length]? with
      | none => none
      | some pos => some ((m.hashMap pos).getD "")

/-- The decimal value of a string of digits. -/
def decimalHash (data : String) : Nat :=
  data.data.foldl (fun n c => 10 * n + (c.toNat - 48)) 0

/-- The ring after `New` and a sequence of `Add` calls, one list of members per
call. -/
def ringOf (replicas : Int) (fn : Option Hash) (adds : List (List String)) : Map :=
  adds.foldl Add (New replicas fn)

/-- The lookup as the specification words it: the empty string on an empty
ring; otherwise the member of the smallest position that is at least the hash
of the key; and when there is none, the member of the first entry. -/
def GetSpec (m : Map) (key : String) : String :=
  if m.keys = [] then ""
  else
    let hash := m.hash key % 4294967296
    match (m.keys.filter (fun pos => decide (pos ≥ hash))).min? with
    | some pos => (m.hashMap pos).getD ""
    | none =>
      match m.keys.head? with
      | some pos => (m.hashMap pos).getD ""
      | none => ""

/-- Every position of the ring is bound by the index to one of the members `S`. -/
def Cover (m : Map) (S : List String) : Prop :=
  ∀ pos ∈ m.keys, ∃ s ∈ S, m.hashMap pos = some s

/-- The ring of the scenario: the hash is the decimal value of its input, the
replication is 3 and one `Add` call lists the members `"6"`, `"4"`, `"2"`. -/
def testRing : Map := Add (New 3 (some decimalHash)) ["6", "4", "2"]

/-- A ring with the empty string as its only member. -/
def emptyMemberRing : Map := ringOf 1 (some decimalHash) [[""]]

/-- The virtual nodes that `Add` makes for a list of members, in the order in
which it inserts them: for each member and each `i` below the replication, the
position `int(hash(member + strconv.Itoa(i)))` with the member as label. -/
def virtualNodes (hash : Hash) (replicas : Nat) (members : List String) :
    List (Nat × String) :=
  members.flatMap (fun key =>
    (List.range replicas).map (fun i => (hash (key ++ Nat.repr i) % 4294967296, key)))

/-- The index after the assignments `hashMap[pos] = key` for a list of virtual
nodes, first node first. -/
def assignAll (hashMap : Nat → Option String) (nodes : List (Nat × String)) :
    Nat → Option String :=
  nodes.foldl (fun hm node => fun h => if h = node.1 then some node.2 else hm h) hashMap

/-- The ring of the scenario's hash with the members `"2"` and `"02"`. -/
def collidingRing : Map := ringOf 3 (some decimalHash) [["2", "02"]]

end ConsistenHash

namespace Singleflight

/-- The struct `Group` of the package `Singleflight`: `m` is `none` for the nil
map and otherwise lists the keys that have a call in flight. -/
structure Group where
  m : Option (List String)

/-- The method `Group.Do` as one caller at a time sees it: the map is made on
first use; with no call for `key` in flight the key is entered, `fn` is run, the
key is deleted again and the result of `fn` is returned.  A caller that finds a
call in flight waits for it, which never ends when there is no other caller:
`none`. -/
def Do {α : Type} (g : Group) (key : String) (fn : Unit → α) : Option (α × Group) :=
  let m := g.m.getD []
  if key ∈ m then none
  else
    let m1 := key :: m
    let r := fn ()
    some (r, { m := some (m1.filter (fun k => k != key)) })

end Singleflight

namespace MyCache

/-- The struct `ByteView`. -/
structure ByteView where
  b : List UInt8

/-- The method `ByteView.Len`. -/
instance : LRU.Value ByteView where
  Len v := v.b.length

/-- The function `cloneBytes`: a fresh slice with the same bytes.  Slices are
values here, so the copy is the list itself. -/
def cloneBytes (b : List UInt8) : List UInt8 := b

/-- The method `ByteView.ByteSlice`. -/
def ByteView.ByteSlice (v : ByteView) : List UInt8 := cloneBytes v.b

/-- A Go `error`, by its message. -/
abbrev Error := String

/-- The interface `Getter`: the loader of a group, a function of the key. -/
abbrev Getter := String → Except Error (List UInt8)

/-- The interface `PeerGetter`: from the group name and the key of the request
to the value of the response, or an error. -/
abbrev PeerGetter := String → String → Except Error (List UInt8)

/-- The interface `PeerPicker`: `none` is `ok = false`. -/
abbrev PeerPicker := String → Option PeerGetter

/-- Modelled from the spec: the type `cache` that `Group.mainCache` has, with its
methods `get` and `add`; its declaration is not among the sources.  The spec
describes an LRU that the group owns, bounded by the group's `maxBytes`, with
every access made under a mutex.  `NewGroup` fills in `cacheBytes` only, so the
LRU is `none` until the first `add` makes it with `cacheBytes` as its maximum
and no eviction callback. -/
structure cache where
  cacheBytes : Int
  lru : Option (LRU.Cache ByteView)

/-- Modelled from the spec: `cache.add`, the `Add` of the owned LRU, which is
made first when it does not exist yet. -/
def cache.add (c : cache) (key : String) (value : ByteView) : Option cache :=
  (LRU.Add (c.lru.getD (LRU.New c.cacheBytes false)) key value).map
    (fun l => { c with lru := some l })

/-- Modelled from the spec: `cache.get`, the `Get` of the owned LRU; a miss
when the LRU does not exist yet. -/
def cache.get (c : cache) (key : String) : cache × Option ByteView :=
  match c.lru with
  | none => (c, none)
  | some l => ({ c with lru := some (LRU.Get l key).1 }, (LRU.Get l key).2)

/-- The struct `Group`.  `loads` is not a field of the Go struct: it records
the keys with which the loader `getter` has been called, oldest first. -/
structure Group where
  name : String
  getter : Getter
  mainCache : cache
  peers : Option PeerPicker
  loader : Singleflight.Group
  loads : List String

/-- The function `NewGroup` (the getter is not nil; the entry it makes in the
registry `groups` is not modelled). -/
def NewGroup (name : String) (cacheBytes : Int) (getter : Getter) : Group :=
  { name := name, getter := getter, mainCache := { cacheBytes := cacheBytes, lru := none },
    peers := none, loader := { m := none }, loads := [] }

/-- The method `Group.populateCache`; `none` when `add` does not return. -/
def Group.populateCache (g : Group) (key : String) (value : ByteView) : Option Group :=
  (g.mainCache.add key value).map (fun c => { g with mainCache := c })

/-- The method `Group.getLocally`. -/
def Group.getLocally (g : Group) (key : String) : Option (Except Error ByteView × Group) :=
  let g1 := { g with loads := g.loads ++ [key] }
  match g.getter key with
  | .error err => some (.error err, g1)
  | .ok bytes =>
    let value : ByteView := { b := cloneBytes bytes }
    (g1.populateCache key value).map (fun g2 => (.ok value, g2))

/-- The function `getFromPeer`. -/
def getFromPeer (peer : PeerGetter) (group : String) (key : String) : Except Error ByteView :=
  match peer group key with
  | .error err => .error err
  | .ok value => .ok { b := value }

/-- The method `Group.load`. -/
def Group.load (g : Group) (key : String) : Option (Except Error ByteView × Group) :=
  let fn : Unit → Option (Except Error ByteView × Group) := fun _ =>
    match g.peers with
    | some peers =>
      match peers key with
      | some peer =>
        match getFromPeer peer g.name key with
        | .ok value => some (.ok value, g)
        | .error _ => g.getLocally key
      | none => g.getLocally key
    | none => g.getLocally key
  match Singleflight.Do g.loader key fn with
  | none => none
  | some (none, _) => none
  | some (some (view, g1), loader) => some (view, { g1 with loader := loader })

/-- The method `Group.Get`; `none` when the call does not return. -/
def Group.Get (g : Group) (key : String) : Option (Except Error ByteView × Group) :=
  if key = "" then some (.error "key is required", g)
  else
    match g.mainCache.get key with
    | (c, some v) => some (.ok v, { g with mainCache := c })
    | (c, none) => Group.load { g with mainCache := c } key

/-- The loader of `TestGet`: `"Tom"` is `"630"`, `"Jack"` is `"589"`, `"Sam"` is
`"567"` (as bytes), any other key is an error. -/
def db : Getter := fun key =>
  if key = "Tom" then .ok [54, 51, 48]
  else if key = "Jack" then .ok [53, 56, 57]
  else if key = "Sam" then .ok [53, 54, 55]
  else .error (key ++ " not exist")

/-- A sequence of `Get` calls on a group, first call first, the results dropped;
`none` when a call does not return. -/
def Group.gets (g : Group) : List String → Option Group
  | [] => some g
  | key :: keys => (g.Get key).bind (fun r => r.2.gets keys)

/-- What holds of a group without peers after `Get` calls for the keys `seen`:
no load is in flight, the LRU (once made) satisfies its invariant and has the
group's budget, and only keys in `seen` have been loaded or are cached. -/
structure GroupInv (g : Group) (seen : List String) : Prop where
  peers : g.peers = none
  idle : g.loader.m = none ∨ g.loader.m = some []
  lru : ∀ l, g.mainCache.lru = some l → LRU.Inv l ∧ l.maxBytes = g.mainCache.cacheBytes
  loads : ∀ x ∈ g.loads, x ∈ seen
  cached : ∀ l, g.mainCache.lru = some l → ∀ e ∈ l.ll, e.key ∈ seen

/-- The group of `TestGet` with a budget of one byte instead of 2048. -/
def tinyGroup : Group := NewGroup "scores" 1 db

/-- The group of `TestGet`. -/
def scoresGroup : Group := NewGroup "scores" 2048 db

/-- The group of `TestGet` after `Get("Sam")`. -/
def scoresGroupSam : Group := (scoresGroup.gets ["Sam"]).getD scoresGroup

/-- The pair `(ByteView, error)` that the Go functions return for a result of
the model: every `return` with a non-nil error in `Group.Get`, `Group.load`,
`Group.getLocally` and `getFromPeer` passes the empty `ByteView{}` as value. -/
def goReturn : Except Error ByteView → ByteView × Option Error
  | .ok v => (v, none)
  | .error err => ({ b := [] }, some err)

/-- The method `Group.RegisterPeers`; `none` is the panic of a second call. -/
def Group.RegisterPeers (g : Group) (peers : PeerPicker) : Option Group :=
  match g.peers with
  | some _ => none
  | none => some { g with peers := some peers }

/-- The calls on a group, to speak about sequences of calls. -/
inductive Call where
  | get (key : String)
  | registerPeers (peers : PeerPicker)

/-- One call on a group, its result dropped; `none` when the call does not
return or panics. -/
def Group.call (g : Group) : Call → Option Group
  | .get key => (g.Get key).map (fun r => r.2)
  | .registerPeers peers => g.RegisterPeers peers

/-- A sequence of calls on a group, first call first. -/
def Group.calls (g : Group) : List Call → Option Group
  | [] => some g
  | c :: cs => (g.call c).bind (fun g1 => g1.calls cs)

/-- Group states that some sequence of calls reaches from `NewGroup`. -/
def Group.Reachable (g : Group) : Prop :=
  ∃ (name : String) (cacheBytes : Int) (getter : Getter) (cs : List Call),
    (NewGroup name cacheBytes getter).calls cs = some g

/-- The key is in the local cache of the group. -/
def Group.cached (g : Group) (key : String) : Bool :=
  match g.mainCache.lru with
  | none => false
  | some l => (l.cache key).isSome

/-- What holds of every reachable group between two calls: no load is in
flight, and the LRU (once made) satisfies its invariant and has the budget of
the group. -/
structure GroupOK (g : Group) : Prop where
  idle : g.loader.m = none ∨ g.loader.m = some []
  lru : ∀ l, g.mainCache.lru = some l → LRU.Inv l ∧ l.maxBytes = g.mainCache.cacheBytes

/-- The state after a load in a group: the state that the load function left,
with the call deleted from the map of calls in flight. -/
def Group.loaded (g : Group) : Group := { g with loader := { m := some [] } }

/-- A picker that names a peer for every key; the peer answers every request
with the bytes 55, 55. -/
def remotePeers : PeerPicker := fun _ => some (fun _ _ => .ok [55, 55])

/-- The group of `TestGet` after `Get("Sam")` and `RegisterPeers(remotePeers)`. -/
def scoresGroupRemote : Group :=
  (scoresGroup.calls [.get "Sam", .registerPeers remotePeers]).getD scoresGroup

/-- The constant `defaultBasePath` of `http.go`. -/
def defaultBasePath : String := "/_mycache/"

/-- The bytes that the standard library function `url.QueryEscape` leaves as
they are: letters, digits, `-`, `_`, `.` and `~`. -/
def unreserved (c : UInt8) : Bool :=
  (Char.ofNat c.toNat).isAlphanum || ['-', '_', '.', '~'].contains (Char.ofNat c.toNat)

/-- The upper-case hexadecimal digit of a number below 16. -/
def hexDigit (n : Nat) : Char :=
  if n < 10 then Char.ofNat (48 + n) else Char.ofNat (55 + n)

/-- The standard library function `url.QueryEscape`: byte by byte, a space
becomes `+` and every other byte that is not unreserved becomes `%XX`. -/
def QueryEscape (s : String) : String :=
  String.mk (s.toUTF8.data.toList.flatMap (fun c =>
    if unreserved c then [Char.ofNat c.toNat]
    else if c == 32 then ['+']
    else ['%', hexDigit (c.toNat / 16), hexDigit (c.toNat % 16)]))

/-- The `baseURL` that `HTTPPool.Set` gives the getter of a peer. -/
def peerBaseURL (peer basePath : String) : String := peer ++ basePath

/-- The URL that `httpGetter.Get` requests:
`fmt.Sprintf("%v%v%v", h.baseURL, url.QueryEscape(group), url.QueryEscape(key))`. -/
def requestURL (baseURL group key : String) : String :=
  baseURL ++ QueryEscape group ++ QueryEscape key

/-- The standard library function `strings.Split(s, "/")`, on characters. -/
def splitSlash : List Char → List (List Char)
  | [] => [[]]
  | c :: cs =>
    if c = '/' then [] :: splitSlash cs
    else
      match splitSlash cs with
      | [] => [[c]]
      | part :: parts => (c :: part) :: parts

/-- The standard library function `strings.Trim(s, "/")`, on characters. -/
def trimSlash (s : List Char) : List Char :=
  ((s.dropWhile (fun c => c == '/')).reverse.dropWhile (fun c => c == '/')).reverse

/-- The start of `HTTPPool.ServeHTTP`, from the path `r.URL.Path` of the request
to the group name and the key, or to the status and message of `http.Error`.
The slice `r.URL.Path[len(p.basePath):]` is taken by characters: the base path
of a pool is always the ASCII string `defaultBasePath`. -/
def requestParts (basePath path : String) : Except (Nat × String) (String × String) :=
  if !basePath.data.isPrefixOf path.data then .error (400, "unexpected path")
  else
    match (splitSlash (trimSlash (path.data.drop basePath.length))).map String.mk with
    | [groupname, key] => .ok (groupname, key)
    | _ => .error (400, "bad request")

end MyCache

/-! ## Their properties -/

namespace LRU

variable {V : Type}

theorem find_some {ll : List (Element V)} {id : Nat} {e : Element V}
    (h : find ll id = some e) : e ∈ ll ∧ e.id = id := by
  unfold find at h
  refine ⟨List.mem_of_find?_eq_some h, ?_⟩
  have := List.find?_some h
  simpa using this

theorem find_none {ll : List (Element V)} {id : Nat}
    (h : find ll id = none) : ∀ e ∈ ll, e.id ≠ id := by
  unfold find at h
  intro e he
  have := List.find?_eq_none.1 h e he
  simpa using this

/-- Unlinking a listed element splits the list around it. -/
theorem unlink_split {ll : List (Element V)} {id : Nat} {e : Element V}
    (hn : (ll.map (fun e => e.id)).Nodup) (h : find ll id = some e) :
    ∃ l1 l2, ll = l1 ++ e :: l2 ∧ unlink ll id = l1 ++ l2 := by
  induction ll with
  | nil => simp [find] at h
  | cons a t ih =>
    rw [List.map_cons, List.nodup_cons] at hn
    by_cases ha : a.id = id
    · have hae : a = e := by
        have : find (a :: t) id = some a := by simp [find, List.find?_cons, ha]
        rw [this] at h
        exact Option.some.inj h
      subst hae
      refine ⟨[], t, rfl, ?_⟩
      have ht : ∀ x ∈ t, x.id ≠ id := by
        intro x hx hxe
        apply hn.1
        rw [ha, ← hxe]
        exact List.mem_map_of_mem _ hx
      simp only [unlink, List.nil_append]
      rw [List.filter_cons_of_neg (by simp [ha])]
      exact List.filter_eq_self.2 (fun x hx => by simpa using ht x hx)
    · have h1 : find t id = some e := by
        have : find (a :: t) id = find t id := by simp [find, List.find?_cons, ha]
        rw [← this]; exact h
      obtain ⟨l1, l2, h2, h3⟩ := ih hn.2 h1
      refine ⟨a :: l1, l2, by rw [h2]; rfl, ?_⟩
      simp only [unlink] at h3 ⊢
      rw [List.filter_cons_of_pos (by simpa using ha), h3]
      rfl

theorem totalSize_append [Value V] (l1 l2 : List (Element V)) :
    totalSize (l1 ++ l2) = totalSize l1 + totalSize l2 := by
  simp [totalSize]

theorem totalSize_cons [Value V] (e : Element V) (l : List (Element V)) :
    totalSize (e :: l) = entrySize e + totalSize l := by
  simp [totalSize]

theorem totalSize_nil [Value V] : totalSize ([] : List (Element V)) = 0 := rfl

theorem entrySize_nonneg [Value V] (e : Element V) : 0 ≤ entrySize e := by
  unfold entrySize; positivity

theorem totalSize_nonneg [Value V] (l : List (Element V)) : 0 ≤ totalSize l := by
  induction l with
  | nil => exact le_refl _
  | cons a t ih => rw [totalSize_cons]; have := entrySize_nonneg a; omega

theorem shape_ids (ll : List (Element V)) :
    ll.map (fun e => e.id) = (shape ll).map Prod.snd := by
  simp [shape, List.map_map, Function.comp_def]

theorem shape_keys (ll : List (Element V)) :
    ll.map (fun e => e.key) = (shape ll).map Prod.fst := by
  simp [shape, List.map_map, Function.comp_def]

theorem mem_shape {ll : List (Element V)} {k : String} {id : Nat} :
    (k, id) ∈ shape ll ↔ ∃ e ∈ ll, e.key = k ∧ e.id = id := by
  simp [shape]

/-- The invariant only looks at the shape of the list up to reordering, at the
index, the counter and the byte count. -/
theorem Inv.of_shape [Value V] {c c1 : Cache V} (h : Inv c)
    (hp : (shape c1.ll).Perm (shape c.ll)) (hc : c1.cache = c.cache)
    (hn : c1.nextId = c.nextId) (hb : c1.nBytes = totalSize c1.ll) : Inv c1 := by
  refine ⟨?_, ?_, ?_, ?_, hb⟩
  · rw [shape_ids]
    exact (hp.map Prod.snd).nodup_iff.2 (by rw [← shape_ids]; exact h.ids)
  · rw [shape_keys]
    exact (hp.map Prod.fst).nodup_iff.2 (by rw [← shape_keys]; exact h.keys)
  · intro k id
    rw [hc, h.index, ← mem_shape, ← mem_shape]
    exact (hp.mem_iff).symm
  · intro e he
    rw [hn]
    have h1 : (e.key, e.id) ∈ shape c1.ll := mem_shape.2 ⟨e, he, rfl, rfl⟩
    obtain ⟨x, hx, _, hxid⟩ := mem_shape.1 (hp.mem_iff.1 h1)
    rw [← hxid]
    exact h.fresh x hx

theorem Inv.New [Value V] (maxBytes : Int) (onEvicted : Bool) :
    Inv (New maxBytes onEvicted : Cache V) := by
  refine ⟨?_, ?_, ?_, ?_, ?_⟩ <;> simp [LRU.New, totalSize]

/-- The index finds exactly the listed entry with the key. -/
theorem Inv.lookup [Value V] {c : Cache V} (h : Inv c) {e : Element V} (he : e ∈ c.ll) :
    c.cache e.key = some e.id ∧ find c.ll e.id = some e := by
  refine ⟨(h.index _ _).2 ⟨e, he, rfl, rfl⟩, ?_⟩
  cases hf : find c.ll e.id with
  | none => exact absurd rfl (find_none hf e he)
  | some x =>
    obtain ⟨hx, hxid⟩ := find_some hf
    have := List.inj_on_of_nodup_map h.ids hx he hxid
    rw [this]

theorem Inv.absent [Value V] {c : Cache V} (h : Inv c) {k : String}
    (hk : ∀ e ∈ c.ll, e.key ≠ k) : c.cache k = none := by
  cases hc : c.cache k with
  | none => rfl
  | some id =>
    obtain ⟨e, he, hek, _⟩ := (h.index _ _).1 hc
    exact absurd hek (hk e he)

theorem Inv.resident_iff [Value V] {c : Cache V} (h : Inv c) (k : String) :
    Resident c k ↔ ∃ e ∈ c.ll, e.key = k := by
  unfold Resident
  constructor
  · intro hr
    obtain ⟨id, hid⟩ := Option.isSome_iff_exists.1 hr
    obtain ⟨e, he, hek, _⟩ := (h.index _ _).1 hid
    exact ⟨e, he, hek⟩
  · rintro ⟨e, he, rfl⟩
    rw [(h.lookup he).1]; rfl

/-- A hit of `Get`: the entry moves to the back, nothing else changes. -/
theorem Get_hit [Value V] {c : Cache V} (h : Inv c) {e : Element V} (he : e ∈ c.ll) :
    ∃ l1 l2, c.ll = l1 ++ e :: l2 ∧
      Get c e.key = ({ c with ll := l1 ++ l2 ++ [e] }, some e.value) := by
  obtain ⟨h1, h2⟩ := h.lookup he
  obtain ⟨l1, l2, h3, h4⟩ := unlink_split h.ids h2
  refine ⟨l1, l2, h3, ?_⟩
  simp only [Get, h1, h2, MoveToBack, h4]

/-- A miss of `Get` changes nothing. -/
theorem Get_miss [Value V] {c : Cache V} (h : Inv c) {k : String}
    (hk : ∀ e ∈ c.ll, e.key ≠ k) : Get c k = (c, none) := by
  simp only [Get, h.absent hk]

theorem shape_move (l1 l2 : List (Element V)) (e e1 : Element V)
    (hk : e1.key = e.key) (hi : e1.id = e.id) :
    (shape (l1 ++ l2 ++ [e1])).Perm (shape (l1 ++ e :: l2)) := by
  simp only [shape, List.map_append, List.map_cons, List.map_nil, hk, hi, List.append_assoc]
  exact List.Perm.append_left _ (List.perm_append_singleton _ _)

theorem Inv.Get [Value V] {c : Cache V} (h : Inv c) (k : String) : Inv (Get c k).1 := by
  by_cases hk : ∃ e ∈ c.ll, e.key = k
  · obtain ⟨e, he, rfl⟩ := hk
    obtain ⟨l1, l2, h1, h2⟩ := Get_hit h he
    rw [h2]
    refine h.of_shape ?_ rfl rfl ?_
    · show (shape (l1 ++ l2 ++ [e])).Perm (shape c.ll)
      rw [h1]; exact shape_move l1 l2 e e rfl rfl
    · show c.nBytes = totalSize (l1 ++ l2 ++ [e])
      rw [h.bytes, h1]
      simp only [totalSize_append, totalSize_cons, totalSize_nil]; ring
  · rw [Get_miss h (by simpa using hk)]
    exact h

theorem RemoveOldest_nil [Value V] {c : Cache V} (h : c.ll = []) : RemoveOldest c = c := by
  simp only [RemoveOldest, h]

theorem RemoveOldest_cons [Value V] {c : Cache V} {e : Element V} {rest : List (Element V)}
    (h : c.ll = e :: rest) :
    RemoveOldest c =
      { c with
        ll := rest
        cache := fun k => if k = e.key then none else c.cache k
        nBytes := c.nBytes - entrySize e
        evicted := if c.onEvicted then c.evicted ++ [(e.key, e.value)] else c.evicted } := by
  simp only [RemoveOldest, h, entrySize]

theorem Inv.RemoveOldest [Value V] {c : Cache V} (h : Inv c) : Inv (RemoveOldest c) := by
  cases hl : c.ll with
  | nil => rw [RemoveOldest_nil hl]; exact h
  | cons e rest =>
    rw [RemoveOldest_cons hl]
    have hids := h.ids
    have hkeys := h.keys
    rw [hl, List.map_cons, List.nodup_cons] at hids hkeys
    refine ⟨hids.2, hkeys.2, ?_, ?_, ?_⟩
    · intro k id
      show (if k = e.key then none else c.cache k) = some id ↔ ∃ x ∈ rest, x.key = k ∧ x.id = id
      by_cases hk : k = e.key
      · rw [if_pos hk]
        constructor
        · intro hh; exact absurd hh (by simp)
        · rintro ⟨x, hx, hxk, _⟩
          have hm : x.key ∈ rest.map (fun e => e.key) := List.mem_map_of_mem _ hx
          rw [hxk, hk] at hm
          exact absurd hm hkeys.1
      · rw [if_neg hk, h.index, hl]
        constructor
        · rintro ⟨x, hx, hxk, hxid⟩
          rcases List.mem_cons.1 hx with rfl | hx
          · exact absurd hxk.symm hk
          · exact ⟨x, hx, hxk, hxid⟩
        · rintro ⟨x, hx, hxk, hxid⟩
          exact ⟨x, List.mem_cons_of_mem _ hx, hxk, hxid⟩
    · intro x hx
      exact h.fresh x (by rw [hl]; exact List.mem_cons_of_mem _ hx)
    · show c.nBytes - entrySize e = totalSize rest
      rw [h.bytes, hl, totalSize_cons]; ring

/-- The first part of `Add` on a resident key: the entry gets the new value
and moves to the back; the byte count changes by the difference of the value
lengths. -/
theorem addEntry_hit [Value V] {c : Cache V} (h : Inv c) {e : Element V} (he : e ∈ c.ll)
    (v : V) :
    ∃ l1 l2, c.ll = l1 ++ e :: l2 ∧
      addEntry c e.key v =
        { c with
          ll := l1 ++ l2 ++ [{ e with value := v }]
          nBytes := c.nBytes + ((Value.Len v : Int) - (Value.Len e.value : Int)) } := by
  obtain ⟨h1, h2⟩ := h.lookup he
  obtain ⟨l1, l2, h3, h4⟩ := unlink_split h.ids h2
  refine ⟨l1, l2, h3, ?_⟩
  simp only [addEntry, h1, h2, h4]

/-- The first part of `Add` on a key that is not resident: a new entry at the
back. -/
theorem addEntry_miss [Value V] {c : Cache V} (h : Inv c) {k : String}
    (hk : ∀ e ∈ c.ll, e.key ≠ k) (v : V) :
    addEntry c k v =
      { c with
        ll := c.ll ++ [{ id := c.nextId, key := k, value := v }]
        cache := fun x => if x = k then some c.nextId else c.cache x
        nBytes := c.nBytes + ((k.utf8ByteSize : Int) + (Value.Len v : Int))
        nextId := c.nextId + 1 } := by
  simp only [addEntry, h.absent hk]

theorem Inv.addEntry [Value V] {c : Cache V} (h : Inv c) (k : String) (v : V) :
    Inv (addEntry c k v) := by
  by_cases hk : ∃ e ∈ c.ll, e.key = k
  · obtain ⟨e, he, rfl⟩ := hk
    obtain ⟨l1, l2, h1, h2⟩ := addEntry_hit h he v
    rw [h2]
    refine h.of_shape ?_ rfl rfl ?_
    · show (shape (l1 ++ l2 ++ [{ e with value := v }])).Perm (shape c.ll)
      rw [h1]; exact shape_move l1 l2 e _ rfl rfl
    · show c.nBytes + ((Value.Len v : Int) - (Value.Len e.value : Int))
        = totalSize (l1 ++ l2 ++ [{ e with value := v }])
      rw [h.bytes, h1]
      simp only [totalSize_append, totalSize_cons, totalSize_nil, entrySize]; ring
  · have hk1 : ∀ e ∈ c.ll, e.key ≠ k := by simpa using hk
    rw [addEntry_miss h hk1]
    refine ⟨?_, ?_, ?_, ?_, ?_⟩
    · show ((c.ll ++ [(⟨c.nextId, k, v⟩ : Element V)]).map (fun e => e.id)).Nodup
      rw [List.map_append, List.map_cons, List.map_nil]
      refine List.Nodup.append h.ids (List.nodup_singleton _) ?_
      rw [List.disjoint_singleton]
      intro hm
      obtain ⟨x, hx, hxid⟩ := List.mem_map.1 hm
      have := h.fresh x hx
      simp only at hxid
      omega
    · show ((c.ll ++ [(⟨c.nextId, k, v⟩ : Element V)]).map (fun e => e.key)).Nodup
      rw [List.map_append, List.map_cons, List.map_nil]
      refine List.Nodup.append h.keys (List.nodup_singleton _) ?_
      rw [List.disjoint_singleton]
      intro hm
      obtain ⟨x, hx, hxk⟩ := List.mem_map.1 hm
      exact hk1 x hx hxk
    · intro x id
      show (if x = k then some c.nextId else c.cache x) = some id ↔
        ∃ e ∈ c.ll ++ [{ id := c.nextId, key := k, value := v }], e.key = x ∧ e.id = id
      by_cases hx : x = k
      · rw [if_pos hx]
        constructor
        · intro hh
          exact ⟨_, List.mem_append_right _ (List.mem_singleton_self _), hx.symm,
            Option.some.inj hh⟩
        · rintro ⟨e, he, hek, heid⟩
          rcases List.mem_append.1 he with he | he
          · exact absurd (hek.trans hx) (hk1 e he)
          · rw [List.mem_singleton] at he
            rw [← heid, he]
      · rw [if_neg hx, h.index]
        constructor
        · rintro ⟨e, he, hek, heid⟩
          exact ⟨e, List.mem_append_left _ he, hek, heid⟩
        · rintro ⟨e, he, hek, heid⟩
          rcases List.mem_append.1 he with he | he
          · exact ⟨e, he, hek, heid⟩
          · rw [List.mem_singleton] at he
            rw [he] at hek
            exact absurd hek.symm hx
    · intro e he
      show e.id < c.nextId + 1
      rcases List.mem_append.1 he with he | he
      · have := h.fresh e he; omega
      · rw [List.mem_singleton] at he
        rw [he]; exact Nat.lt_succ_self _
    · show c.nBytes + ((k.utf8ByteSize : Int) + (Value.Len v : Int))
        = totalSize (c.ll ++ [{ id := c.nextId, key := k, value := v }])
      rw [h.bytes]
      simp only [totalSize_append, totalSize_cons, totalSize_nil, entrySize]; ring

/-- More fuel does not change a result of the loop. -/
theorem evictLoop_mono [Value V] {n : Nat} {c c1 : Cache V} (h : evictLoop n c = some c1) :
    ∀ m, n ≤ m → evictLoop m c = some c1 := by
  induction n generalizing c with
  | zero => simp [evictLoop] at h
  | succ n ih =>
    intro m hm
    obtain ⟨m, rfl⟩ : ∃ k, m = k + 1 := ⟨m - 1, by omega⟩
    unfold evictLoop at h ⊢
    split
    · rename_i hc
      rw [if_pos hc] at h
      exact ih h m (by omega)
    · rename_i hc
      rw [if_neg hc] at h
      exact h

/-- With an empty list and the budget still exceeded the loop never stops. -/
theorem evictLoop_stuck [Value V] {c : Cache V} (hl : c.ll = [])
    (hc : c.maxBytes ≠ 0 ∧ c.maxBytes < c.nBytes) : ∀ n, evictLoop n c = none := by
  intro n
  induction n with
  | zero => rfl
  | succ n ih =>
    unfold evictLoop
    rw [if_pos hc, RemoveOldest_nil hl]
    exact ih

/-- The fuel that `Add` hands to the loop is enough: if the loop has not
stopped by then, no amount of fuel makes it stop. -/
theorem evictLoop_fuel [Value V] (c : Cache V)
    (h : evictLoop (c.ll.length + 1) c = none) : ∀ n, evictLoop n c = none := by
  generalize hlen : c.ll.length = len at h
  induction len generalizing c with
  | zero =>
    have hl : c.ll = [] := List.length_eq_zero.1 hlen
    unfold evictLoop at h
    split at h
    · rename_i hc; exact evictLoop_stuck hl hc
    · exact absurd h (by simp)
  | succ len ih =>
    obtain ⟨e, rest, hl⟩ : ∃ e rest, c.ll = e :: rest := by
      cases hc : c.ll with
      | nil => rw [hc] at hlen; simp at hlen
      | cons e rest => exact ⟨e, rest, rfl⟩
    unfold evictLoop at h
    split at h
    · rename_i hc
      have hr : (RemoveOldest c).ll.length = len := by
        rw [RemoveOldest_cons hl]
        rw [hl] at hlen
        simpa using hlen
      have := ih (RemoveOldest c) hr h
      intro n
      cases n with
      | zero => rfl
      | succ n =>
        unfold evictLoop
        rw [if_pos hc]
        exact this n
    · exact absurd h (by simp)

/-- The eviction loop on a state with a non-negative budget stops, and
`Evicted` describes its result. -/
theorem evictLoop_spec [Value V] (n : Nat) (c : Cache V) (h : Inv c)
    (hM : 0 ≤ c.maxBytes) (hn : c.ll.length < n) :
    ∃ dropped c1, evictLoop n c = some c1 ∧ Inv c1 ∧ Evicted c dropped c1 := by
  induction n generalizing c with
  | zero => omega
  | succ n ih =>
    unfold evictLoop
    by_cases hc : c.maxBytes ≠ 0 ∧ c.maxBytes < c.nBytes
    · rw [if_pos hc]
      cases hl : c.ll with
      | nil =>
        have := h.bytes
        rw [hl, totalSize_nil] at this
        omega
      | cons e rest =>
        have hr := RemoveOldest_cons hl
        have hinv := h.RemoveOldest
        have hrl : (RemoveOldest c).ll = rest := by rw [hr]
        have hrm : (RemoveOldest c).maxBytes = c.maxBytes := by rw [hr]
        obtain ⟨dropped, c1, h1, h2, h3⟩ := ih (RemoveOldest c) hinv (by rw [hrm]; exact hM)
          (by rw [hrl]; rw [hl] at hn; simpa using hn)
        refine ⟨e :: dropped, c1, h1, h2, ?_⟩
        refine ⟨?_, ?_, ?_, ?_, ?_, ?_, ?_, ?_⟩
        · rw [List.cons_append, ← h3.ll, hrl]; exact hl
        · rw [h3.maxBytes, hrm]
        · rw [h3.onEvicted, hr]
        · rw [h3.nextId, hr]
        · rw [h3.evicted, hr]
          cases c.onEvicted <;> simp
        · intro k
          rw [h3.cache, hr]
          simp only [List.map_cons, List.mem_cons]
          by_cases hk : k = e.key
          · simp [hk]
          · simp [hk]
        · rw [← hrm]; exact h3.fits
        · intro d1 d2 hd hd2
          refine ⟨hc.1, ?_⟩
          cases d1 with
          | nil =>
            rw [List.nil_append] at hd
            rw [← hd, List.cons_append, ← h3.ll, hrl, ← hl, ← h.bytes]
            exact hc.2
          | cons a d1 =>
            rw [List.cons_append] at hd
            have := (h3.longest d1 d2 (List.cons.inj hd).2 hd2).2
            rw [hrm] at this
            exact this
    · rw [if_neg hc]
      refine ⟨[], c, rfl, h, ?_⟩
      refine ⟨rfl, rfl, rfl, rfl, ?_, ?_, ?_, ?_⟩
      · cases c.onEvicted <;> simp
      · intro k; simp
      · by_cases h0 : c.maxBytes = 0
        · exact Or.inl h0
        · right
          have : ¬ c.maxBytes < c.nBytes := fun hlt => hc ⟨h0, hlt⟩
          omega
      · intro d1 d2 hd hd2
        have := List.append_eq_nil.1 hd.symm
        exact absurd this.2 hd2

/-- The method `Add` on a state with a non-negative budget returns; its
result is that of `addEntry` followed by the evictions of `Evicted`. -/
theorem Add_spec [Value V] (c : Cache V) (h : Inv c) (hM : 0 ≤ c.maxBytes)
    (k : String) (v : V) :
    ∃ dropped c1, Add c k v = some c1 ∧ Inv c1 ∧ Evicted (addEntry c k v) dropped c1 := by
  have hm : (addEntry c k v).maxBytes = c.maxBytes := by
    unfold addEntry
    split
    · split <;> rfl
    · rfl
  exact evictLoop_spec _ _ (h.addEntry k v) (by rw [hm]; exact hM) (Nat.lt_succ_self _)

theorem addEntry_maxBytes [Value V] (c : Cache V) (k : String) (v : V) :
    (addEntry c k v).maxBytes = c.maxBytes := by
  unfold addEntry
  split
  · split <;> rfl
  · rfl

theorem pairsSize_entries [Value V] (ll : List (Element V)) :
    pairsSize (entries ll) = totalSize ll := by
  induction ll with
  | nil => rfl
  | cons a t ih =>
    rw [totalSize_cons, ← ih]
    simp [pairsSize, entries, entrySize]

theorem evictLoop_inv [Value V] {n : Nat} {c c1 : Cache V} (h : Inv c)
    (hr : evictLoop n c = some c1) :
    Inv c1 ∧ c1.maxBytes = c.maxBytes ∧ c1.onEvicted = c.onEvicted ∧
      (c1.maxBytes = 0 ∨ c1.nBytes ≤ c1.maxBytes) ∧ c1.nBytes ≤ c.nBytes := by
  induction n generalizing c with
  | zero => simp [evictLoop] at hr
  | succ n ih =>
    unfold evictLoop at hr
    split at hr
    · obtain ⟨h1, h2, h3, h4, h5⟩ := ih h.RemoveOldest hr
      have hm : (RemoveOldest c).maxBytes = c.maxBytes ∧
          (RemoveOldest c).onEvicted = c.onEvicted ∧ (RemoveOldest c).nBytes ≤ c.nBytes := by
        cases hl : c.ll with
        | nil => rw [RemoveOldest_nil hl]; exact ⟨rfl, rfl, le_refl _⟩
        | cons e rest =>
          rw [RemoveOldest_cons hl]
          refine ⟨rfl, rfl, ?_⟩
          have := entrySize_nonneg e
          show c.nBytes - entrySize e ≤ c.nBytes
          omega
      exact ⟨h1, h2.trans hm.1, h3.trans hm.2.1, h4, le_trans h5 hm.2.2⟩
    · rename_i hc
      have hcc := Option.some.inj hr
      subst hcc
      refine ⟨h, rfl, rfl, ?_, le_refl _⟩
      by_cases h0 : c.maxBytes = 0
      · exact Or.inl h0
      · right
        have : ¬ c.maxBytes < c.nBytes := fun hlt => hc ⟨h0, hlt⟩
        omega

theorem addEntry_onEvicted [Value V] (c : Cache V) (k : String) (v : V) :
    (addEntry c k v).onEvicted = c.onEvicted := by
  unfold addEntry
  split
  · split <;> rfl
  · rfl

theorem Get_fields (c : Cache V) (k : String) :
    (Get c k).1.maxBytes = c.maxBytes ∧ (Get c k).1.onEvicted = c.onEvicted ∧
      (Get c k).1.nBytes = c.nBytes := by
  unfold Get
  split
  · split <;> exact ⟨rfl, rfl, rfl⟩
  · exact ⟨rfl, rfl, rfl⟩

theorem RemoveOldest_fields [Value V] (c : Cache V) :
    (RemoveOldest c).maxBytes = c.maxBytes ∧ (RemoveOldest c).onEvicted = c.onEvicted ∧
      (RemoveOldest c).nBytes ≤ c.nBytes := by
  cases hl : c.ll with
  | nil => rw [RemoveOldest_nil hl]; exact ⟨rfl, rfl, le_refl _⟩
  | cons e rest =>
    rw [RemoveOldest_cons hl]
    refine ⟨rfl, rfl, ?_⟩
    have := entrySize_nonneg e
    show c.nBytes - entrySize e ≤ c.nBytes
    omega

/-- Every call keeps the invariant, the budget and the callback; and once the
budget is positive and respected, it stays respected. -/
theorem step_inv [Value V] {c c1 : Cache V} {op : Op V} (h : Inv c)
    (hs : step c op = some c1) :
    Inv c1 ∧ c1.maxBytes = c.maxBytes ∧ c1.onEvicted = c.onEvicted ∧
      (0 < c.maxBytes → c.nBytes ≤ c.maxBytes → c1.nBytes ≤ c.maxBytes) := by
  cases op with
  | add k v =>
    obtain ⟨h1, h2, h3, h4, _⟩ := evictLoop_inv (h.addEntry k v) hs
    rw [addEntry_maxBytes] at h2
    rw [addEntry_onEvicted] at h3
    refine ⟨h1, h2, h3, ?_⟩
    intro hM _
    rw [h2] at h4
    rcases h4 with h4 | h4
    · omega
    · exact h4
  | get k =>
    cases Option.some.inj hs
    obtain ⟨h1, h2, h3⟩ := Get_fields c k
    exact ⟨h.Get k, h1, h2, fun _ hb => by rw [h3]; exact hb⟩
  | removeOldest =>
    cases Option.some.inj hs
    obtain ⟨h1, h2, h3⟩ := RemoveOldest_fields c
    exact ⟨h.RemoveOldest, h1, h2, fun _ hb => le_trans h3 hb⟩

theorem run_inv [Value V] {ops : List (Op V)} {c c1 : Cache V} (h : Inv c)
    (hr : run c ops = some c1) :
    Inv c1 ∧ c1.maxBytes = c.maxBytes ∧ c1.onEvicted = c.onEvicted ∧
      (0 < c.maxBytes → c.nBytes ≤ c.maxBytes → c1.nBytes ≤ c.maxBytes) := by
  induction ops generalizing c with
  | nil =>
    cases Option.some.inj hr
    exact ⟨h, rfl, rfl, fun _ hb => hb⟩
  | cons op ops ih =>
    simp only [run] at hr
    cases hs : step c op with
    | none => rw [hs] at hr; simp at hr
    | some c2 =>
      rw [hs] at hr
      obtain ⟨h1, h2, h3, h4⟩ := step_inv h hs
      obtain ⟨k1, k2, k3, k4⟩ := ih h1 hr
      refine ⟨k1, k2.trans h2, k3.trans h3, ?_⟩
      intro hM hb
      rw [h2] at k4
      exact k4 hM (h4 hM hb)

/-- Every call returns when the budget is non-negative. -/
theorem step_total [Value V] {c : Cache V} (h : Inv c) (hM : 0 ≤ c.maxBytes) (op : Op V) :
    ∃ c1, step c op = some c1 := by
  cases op with
  | add k v =>
    obtain ⟨_, c1, h1, _, _⟩ := Add_spec c h hM k v
    exact ⟨c1, h1⟩
  | get k => exact ⟨_, rfl⟩
  | removeOldest => exact ⟨_, rfl⟩

theorem run_total [Value V] (ops : List (Op V)) {c : Cache V} (h : Inv c)
    (hM : 0 ≤ c.maxBytes) : ∃ c1, run c ops = some c1 := by
  induction ops generalizing c with
  | nil => exact ⟨c, rfl⟩
  | cons op ops ih =>
    obtain ⟨c2, hs⟩ := step_total h hM op
    obtain ⟨h1, h2, _, _⟩ := step_inv h hs
    obtain ⟨c1, hr⟩ := ih h1 (by rw [h2]; exact hM)
    exact ⟨c1, by simp only [run, hs]; exact hr⟩

theorem Reachable.inv [Value V] {c : Cache V} (h : Reachable c) : Inv c := by
  obtain ⟨M, cb, ops, hr⟩ := h
  exact (run_inv (Inv.New M cb) hr).1

theorem Reachable.bounded [Value V] {c : Cache V} (h : Reachable c) (hM : 0 < c.maxBytes) :
    c.nBytes ≤ c.maxBytes := by
  obtain ⟨M, cb, ops, hr⟩ := h
  obtain ⟨_, h2, _, h4⟩ := run_inv (Inv.New M cb) hr
  rw [h2] at hM ⊢
  exact h4 hM (le_of_lt hM)

theorem testCache_reachable : Reachable testCache :=
  ⟨20, true, [.add "key1" "value1", .add "key2" "value2", .add "k3" "v3"], rfl⟩

theorem filter_entries_of_ne (l : List (Element V)) (k : String)
    (h : ∀ x ∈ l, x.key ≠ k) :
    (entries l).filter (fun p => decide (p.1 ≠ k)) = entries l := by
  apply List.filter_eq_self.2
  intro p hp
  obtain ⟨x, hx, rfl⟩ := List.mem_map.1 hp
  simpa using h x hx

theorem entries_append (l1 l2 : List (Element V)) :
    entries (l1 ++ l2) = entries l1 ++ entries l2 := by
  simp [entries]

/-- The recency order right after the first part of `Add`: the other entries in
their old order, then the added pair at the most recently used end. -/
theorem addEntry_entries [Value V] {c : Cache V} (h : Inv c) (k : String) (v : V) :
    entries (addEntry c k v).ll =
      (entries c.ll).filter (fun p => decide (p.1 ≠ k)) ++ [(k, v)] := by
  by_cases hk : ∃ e ∈ c.ll, e.key = k
  · obtain ⟨e, he, rfl⟩ := hk
    obtain ⟨l1, l2, h1, h2⟩ := addEntry_hit h he v
    rw [h2]
    have hkeys := h.keys
    rw [h1, List.map_append, List.map_cons] at hkeys
    have hn1 : ∀ x ∈ l1, x.key ≠ e.key := by
      intro x hx hxe
      have hd := (List.nodup_append.1 hkeys).2.2
      exact hd (List.mem_map_of_mem (fun e => e.key) hx) (by rw [hxe]; exact List.mem_cons_self _ _)
    have hn2 : ∀ x ∈ l2, x.key ≠ e.key := by
      intro x hx hxe
      have hd := (List.nodup_cons.1 (List.nodup_append.1 hkeys).2.1).1
      apply hd
      rw [← hxe]
      exact List.mem_map_of_mem (fun e => e.key) hx
    show entries (l1 ++ l2 ++ [{ e with value := v }]) = _
    rw [h1, entries_append, entries_append, entries_append, List.filter_append,
      filter_entries_of_ne l1 _ hn1]
    have : entries (e :: l2) = (e.key, e.value) :: entries l2 := rfl
    rw [this, List.filter_cons_of_neg (by simp), filter_entries_of_ne l2 _ hn2]
    rfl
  · have hk1 : ∀ e ∈ c.ll, e.key ≠ k := by simpa using hk
    rw [addEntry_miss h hk1, filter_entries_of_ne _ _ hk1]
    show entries (c.ll ++ [(⟨c.nextId, k, v⟩ : Element V)]) = _
    rw [entries_append]
    rfl

theorem addEntry_last [Value V] {c : Cache V} (h : Inv c) (k : String) (v : V) :
    ∃ init e, (addEntry c k v).ll = init ++ [e] ∧ e.key = k ∧ e.value = v := by
  by_cases hk : ∃ e ∈ c.ll, e.key = k
  · obtain ⟨e, he, rfl⟩ := hk
    obtain ⟨l1, l2, _, h2⟩ := addEntry_hit h he v
    exact ⟨l1 ++ l2, { e with value := v }, by rw [h2], rfl, rfl⟩
  · have hk1 : ∀ e ∈ c.ll, e.key ≠ k := by simpa using hk
    exact ⟨c.ll, ⟨c.nextId, k, v⟩, by rw [addEntry_miss h hk1], rfl, rfl⟩

/-- A non-empty back segment of a list ends with the last element of the list. -/
theorem last_of_suffix {α : Type} {init d r : List α} {x : α}
    (h : init ++ [x] = d ++ r) (hr : r ≠ []) : x ∈ r := by
  rcases List.eq_nil_or_concat r with h0 | ⟨r1, y, rfl⟩
  · exact absurd h0 hr
  · rw [List.concat_eq_append, ← List.append_assoc] at h
    have := (List.append_inj' h rfl).2
    rw [List.concat_eq_append]
    simp only [List.cons.injEq, and_true] at this
    rw [this]
    simp

/-- An entry that alone exceeds a positive budget is evicted again by the
`Add` that brought it, together with everything else; an entry within the
budget (or any entry when there is no budget) stays. -/
theorem Add_last [Value V] {c : Cache V} (h : Inv c) (hM : 0 ≤ c.maxBytes) (k : String)
    (v : V) :
    ∃ c1, Add c k v = some c1 ∧ Inv c1 ∧ c1.maxBytes = c.maxBytes ∧
      ((c.maxBytes = 0 ∨ (k.utf8ByteSize : Int) + (Value.Len v : Int) ≤ c.maxBytes) →
        ∃ e ∈ c1.ll, e.key = k ∧ e.value = v) ∧
      (0 < c.maxBytes → c.maxBytes < (k.utf8ByteSize : Int) + (Value.Len v : Int) →
        c1.ll = []) := by
  obtain ⟨dropped, c1, h1, h2, h3⟩ := Add_spec c h hM k v
  obtain ⟨init, e, h4, h5, h6⟩ := addEntry_last h k v
  have hm := h3.maxBytes
  rw [addEntry_maxBytes] at hm
  have hll := h3.ll
  rw [h4] at hll
  have hsz : entrySize e = (k.utf8ByteSize : Int) + (Value.Len v : Int) := by
    rw [entrySize, h5, h6]
  refine ⟨c1, h1, h2, hm, ?_, ?_⟩
  · intro hcap
    by_cases hr : c1.ll = []
    · rw [hr, List.append_nil] at hll
      have := h3.longest init [e] hll.symm (by simp)
      rw [addEntry_maxBytes, hr, List.append_nil, totalSize_cons, totalSize_nil, hsz] at this
      rcases hcap with hcap | hcap
      · exact absurd hcap this.1
      · omega
    · exact ⟨e, last_of_suffix hll hr, h5, h6⟩
  · intro hpos hbig
    by_contra hr
    have he : e ∈ c1.ll := last_of_suffix hll hr
    have hfit := h3.fits
    rw [addEntry_maxBytes] at hfit
    have hle : entrySize e ≤ totalSize c1.ll := by
      obtain ⟨a, b, hab⟩ := List.append_of_mem he
      rw [hab, totalSize_append, totalSize_cons]
      have := totalSize_nonneg a
      have := totalSize_nonneg b
      omega
    rw [← h2.bytes] at hle
    rcases hfit with hfit | hfit
    · omega
    · omega

end LRU

/-- C1: on a cache made by `New` with a maximum `M > 0`, every finite sequence
of `Add`, `Get` and `RemoveOldest` calls returns, and after the whole sequence
as well as after each of its prefixes the tracked byte usage `nBytes` is at most
`M`; and an `Add` of an entry whose own size `len(key) + value.Len()` exceeds
`M`, on the state reached, returns and leaves that key neither in the index nor
in the list. -/
theorem LRU.usage_never_exceeds_maximum {V : Type} [LRU.Value V] (M : Int) (hM : 0 < M)
    (onEvicted : Bool) (ops : List (LRU.Op V)) :
    (∀ n, ∃ c, LRU.run (LRU.New M onEvicted) (ops.take n) = some c ∧ c.nBytes ≤ M) ∧
    ∃ c, LRU.run (LRU.New M onEvicted) ops = some c ∧ c.nBytes ≤ M ∧
      ∀ (k : String) (v : V), M < (k.utf8ByteSize : Int) + (LRU.Value.Len v : Int) →
        ∃ c1, LRU.Add c k v = some c1 ∧ c1.nBytes ≤ M ∧ ¬ LRU.Resident c1 k ∧
          ∀ e ∈ c1.ll, e.key ≠ k := by
  have key : ∀ l : List (LRU.Op V), ∃ c, LRU.run (LRU.New M onEvicted) l = some c ∧
      LRU.Inv c ∧ c.maxBytes = M ∧ c.nBytes ≤ M := by
    intro l
    obtain ⟨c, hc⟩ := LRU.run_total l (LRU.Inv.New M onEvicted) (le_of_lt hM)
    obtain ⟨h1, h2, _, h4⟩ := LRU.run_inv (LRU.Inv.New M onEvicted) hc
    exact ⟨c, hc, h1, h2, h4 hM (le_of_lt hM)⟩
  refine ⟨fun n => ?_, ?_⟩
  · obtain ⟨c, hc, _, _, hb⟩ := key (ops.take n)
    exact ⟨c, hc, hb⟩
  · obtain ⟨c, hc, hinv, hm, hb⟩ := key ops
    refine ⟨c, hc, hb, ?_⟩
    intro k v hbig
    obtain ⟨c1, h1, h2, h3, _, h5⟩ := LRU.Add_last hinv (by rw [hm]; exact le_of_lt hM) k v
    have hnil := h5 (by rw [hm]; exact hM) (by rw [hm]; exact hbig)
    refine ⟨c1, h1, ?_, ?_, ?_⟩
    · rw [h2.bytes, hnil, LRU.totalSize_nil]; exact le_of_lt hM
    · rw [h2.resident_iff, hnil]; simp
    · rw [hnil]; simp

/-- C1 at a cache with maximum 20 and a sequence of five calls: the sequence
returns and the usage it leaves is at most 20; the `Add` of the 24-byte entry
`("big", "twenty-one bytes long")` that follows returns and leaves `"big"` not
resident. -/
theorem LRU.usage_never_exceeds_maximum_witness :
    (0 : Int) < 20 ∧
    ∃ c : LRU.Cache String,
      LRU.run (LRU.New 20 true)
        [.add "key1" "value1", .get "key1", .add "key2" "value2", .removeOldest,
         .add "k3" "v3"] = some c ∧ c.nBytes ≤ 20 ∧
      ∃ c1, LRU.Add c "big" "twenty-one bytes long" = some c1 ∧ c1.nBytes ≤ 20 ∧
        ¬ LRU.Resident c1 "big" ∧ ∀ e ∈ c1.ll, e.key ≠ "big" :=
  ⟨by decide,
    let ⟨c, h1, h2, h3⟩ := (LRU.usage_never_exceeds_maximum (V := String) 20 (by decide) true
      [.add "key1" "value1", .get "key1", .add "key2" "value2", .removeOldest,
       .add "k3" "v3"]).2
    ⟨c, h1, h2, h3 "big" "twenty-one bytes long" (by decide)⟩⟩

namespace LRU

variable {V : Type}

theorem evictLoop_sub [Value V] {n : Nat} {c c1 : Cache V} (hr : evictLoop n c = some c1) :
    ∀ e ∈ c1.ll, e ∈ c.ll := by
  induction n generalizing c with
  | zero => simp [evictLoop] at hr
  | succ n ih =>
    unfold evictLoop at hr
    split at hr
    · intro e he
      have := ih hr e he
      cases hl : c.ll with
      | nil => rw [RemoveOldest_nil hl, hl] at this; exact this
      | cons a rest =>
        rw [RemoveOldest_cons hl] at this
        exact List.mem_cons_of_mem _ this
    · have hcc := Option.some.inj hr
      subst hcc
      exact fun e he => he

theorem mem_entries_key {ll : List (Element V)} {p : String × V} (h : p ∈ entries ll) :
    p.1 ∈ ll.map (fun e => e.key) := by
  obtain ⟨x, hx, rfl⟩ := List.mem_map.1 h
  exact List.mem_map_of_mem (fun e => e.key) hx

/-- A call only brings in the key it adds. -/
theorem step_keys [Value V] {c c1 : Cache V} {op : Op V} (h : Inv c)
    (hs : step c op = some c1) :
    ∀ e ∈ c1.ll, e.key ∈ c.ll.map (fun e => e.key) ∨ e.key ∈ addedKeys [op] := by
  intro e he
  cases op with
  | add k v =>
    have h1 := evictLoop_sub hs e he
    have h2 : (e.key, e.value) ∈ entries (addEntry c k v).ll :=
      List.mem_map.2 ⟨e, h1, rfl⟩
    rw [addEntry_entries h, List.mem_append] at h2
    rcases h2 with h2 | h2
    · exact Or.inl (mem_entries_key (List.mem_filter.1 h2).1)
    · right
      rw [List.mem_singleton] at h2
      have : e.key = k := congrArg Prod.fst h2
      simp [addedKeys, this]
  | get k =>
    left
    have hcc := Option.some.inj hs
    subst hcc
    by_cases hk : ∃ x ∈ c.ll, x.key = k
    · obtain ⟨x, hx, rfl⟩ := hk
      obtain ⟨l1, l2, h1, h2⟩ := Get_hit h hx
      rw [h2] at he
      refine List.mem_map_of_mem (fun e : Element V => e.key) ?_
      rw [h1]
      have he1 : e ∈ l1 ++ l2 ++ [x] := he
      simp only [List.mem_append, List.mem_singleton, List.mem_cons] at he1 ⊢
      tauto
    · rw [Get_miss h (by simpa using hk)] at he
      exact List.mem_map_of_mem (fun e => e.key) he
  | removeOldest =>
    left
    have hcc := Option.some.inj hs
    subst hcc
    refine List.mem_map_of_mem (fun e : Element V => e.key) ?_
    cases hl : c.ll with
    | nil => rw [RemoveOldest_nil hl, hl] at he; exact he
    | cons a rest =>
      rw [RemoveOldest_cons hl] at he
      exact List.mem_cons_of_mem _ he

theorem addedKeys_cons (op : Op V) (ops : List (Op V)) :
    addedKeys (op :: ops) = addedKeys [op] ++ addedKeys ops := by
  cases op <;> rfl

theorem run_keys [Value V] {ops : List (Op V)} {c c1 : Cache V} (h : Inv c)
    (hr : run c ops = some c1) :
    ∀ e ∈ c1.ll, e.key ∈ c.ll.map (fun e => e.key) ∨ e.key ∈ addedKeys ops := by
  induction ops generalizing c with
  | nil =>
    have hcc := Option.some.inj hr
    subst hcc
    exact fun e he => Or.inl (List.mem_map_of_mem (fun e => e.key) he)
  | cons op ops ih =>
    simp only [run] at hr
    cases hs : step c op with
    | none => rw [hs] at hr; simp at hr
    | some c2 =>
      rw [hs] at hr
      intro e he
      rw [addedKeys_cons, List.mem_append]
      rcases ih (step_inv h hs).1 hr e he with h1 | h1
      · obtain ⟨x, hx, hxe⟩ := List.mem_map.1 h1
        rcases step_keys h hs x hx with h2 | h2
        · left; rw [← hxe]; exact h2
        · right; left; rw [← hxe]; exact h2
      · right; right; exact h1

theorem addEntry_evicted [Value V] (c : Cache V) (k : String) (v : V) :
    (addEntry c k v).evicted = c.evicted := by
  unfold addEntry
  split
  · split <;> rfl
  · rfl

theorem testCache2_reachable : Reachable testCache2 :=
  ⟨20, true, [.add "key1" "value1", .add "key2" "value2"], rfl⟩

end LRU

/-- C2: in every cache state reached from `New` by `Add` (of a new or of a
resident key), `Get` and `RemoveOldest` calls, `nBytes` equals the sum of
`len(key) + value.Len()` over the entries of the list; these are the resident
entries, one for each key of the index. -/
theorem LRU.nBytes_is_sum_of_entry_sizes {V : Type} [LRU.Value V] (c : LRU.Cache V)
    (h : LRU.Reachable c) :
    c.nBytes = (c.ll.map (fun e =>
        (e.key.utf8ByteSize : Int) + (LRU.Value.Len e.value : Int))).sum ∧
      (∀ k, LRU.Resident c k ↔ ∃ e ∈ c.ll, e.key = k) ∧
      (c.ll.map (fun e => e.key)).Nodup :=
  ⟨h.inv.bytes, h.inv.resident_iff, h.inv.keys⟩

/-- C2 at the state of `TestRemoveOldest` after its three `Add` calls. -/
theorem LRU.nBytes_is_sum_of_entry_sizes_witness :
    LRU.Reachable LRU.testCache ∧
      LRU.testCache.nBytes = (LRU.testCache.ll.map (fun e =>
        (e.key.utf8ByteSize : Int) + (LRU.Value.Len e.value : Int))).sum :=
  ⟨LRU.testCache_reachable,
    (LRU.nBytes_is_sum_of_entry_sizes LRU.testCache LRU.testCache_reachable).1⟩

/-- C3: on a state reached from `New`, for a key `k` and value `v` that fit
(the maximum is 0, or `len(k) + v.Len()` is at most the maximum), `Add(k, v)`
returns and the `Get(k)` that follows it returns `(v, true)`, whether or not `k`
was resident before; and `Get` of a key on which `Add` was never called is a
miss. -/
theorem LRU.add_then_get_returns_value {V : Type} [LRU.Value V] (M : Int)
    (onEvicted : Bool) (ops : List (LRU.Op V)) (c : LRU.Cache V)
    (hr : LRU.run (LRU.New M onEvicted) ops = some c) :
    (∀ (k : String) (v : V),
      (c.maxBytes = 0 ∨ (k.utf8ByteSize : Int) + (LRU.Value.Len v : Int) ≤ c.maxBytes) →
        ∃ c1, LRU.Add c k v = some c1 ∧ (LRU.Get c1 k).2 = some v) ∧
    (∀ k : String, k ∉ LRU.addedKeys ops → (LRU.Get c k).2 = none) := by
  have hinv : LRU.Inv c := (LRU.run_inv (LRU.Inv.New M onEvicted) hr).1
  constructor
  · intro k v hcap
    have hM : 0 ≤ c.maxBytes := by
      rcases hcap with h0 | h0
      · omega
      · exact le_trans (by positivity) h0
    obtain ⟨c1, h1, h2, _, h4, _⟩ := LRU.Add_last hinv hM k v
    obtain ⟨e, he, hek, hev⟩ := h4 hcap
    obtain ⟨l1, l2, _, hg⟩ := LRU.Get_hit h2 he
    refine ⟨c1, h1, ?_⟩
    rw [← hek, hg, hev]
  · intro k hk
    have hmiss : ∀ e ∈ c.ll, e.key ≠ k := by
      intro e he hek
      rcases LRU.run_keys (LRU.Inv.New M onEvicted) hr e he with h1 | h1
      · simp [LRU.New] at h1
      · exact hk (hek ▸ h1)
    rw [LRU.Get_miss hinv hmiss]

/-- C3 on the cache of `TestGet` (maximum 0) after `Add("key1", "value1")`:
adding `"key1"` again with another value and reading it back gives the new
value, and `"key2"` is a miss. -/
theorem LRU.add_then_get_returns_value_witness :
    (∃ c1 : LRU.Cache String, LRU.run (LRU.New 0 false) [.add "key1" "value1"] = some c1 ∧
      (∃ c2, LRU.Add c1 "key1" "other" = some c2 ∧ (LRU.Get c2 "key1").2 = some "other") ∧
      (LRU.Get c1 "key2").2 = none) :=
  ⟨(LRU.Add (LRU.New 0 false) "key1" "value1").getD (LRU.New 0 false), rfl,
    (LRU.add_then_get_returns_value 0 false [.add "key1" "value1"] _ rfl).1
      "key1" "other" (Or.inl rfl),
    (LRU.add_then_get_returns_value 0 false [.add "key1" "value1"] _ rfl).2
      "key2" (by decide)⟩

/-- C4: on a state reached from `New` with a maximum `M > 0`, `Add(k, v)`
returns; the recency order with `(k, v)` put at the most recently used end
splits into the removed entries, at the least recently used end, and the
entries resident afterwards, which total at most `M` while every longer back
segment totals more than `M`; the index holds exactly the keys that stay; and
with a callback installed the callback is called once for each removed entry,
with its key and value, least recently used first (without a callback no call
is recorded). -/
theorem LRU.eviction_is_least_recently_used_first {V : Type} [LRU.Value V]
    (c : LRU.Cache V) (h : LRU.Reachable c) (hM : 0 < c.maxBytes) (k : String) (v : V) :
    ∃ c1 removed, LRU.Add c k v = some c1 ∧
      (LRU.entries c.ll).filter (fun p => decide (p.1 ≠ k)) ++ [(k, v)]
        = removed ++ LRU.entries c1.ll ∧
      LRU.pairsSize (LRU.entries c1.ll) ≤ c.maxBytes ∧
      (∀ d1 d2, removed = d1 ++ d2 → d2 ≠ [] →
        c.maxBytes < LRU.pairsSize (d2 ++ LRU.entries c1.ll)) ∧
      (∀ x, LRU.Resident c1 x ↔ x ∈ (LRU.entries c1.ll).map Prod.fst) ∧
      c1.evicted = c.evicted ++ (if c.onEvicted then removed else []) := by
  obtain ⟨dropped, c1, h1, h2, h3⟩ := LRU.Add_spec c h.inv (le_of_lt hM) k v
  have hm := LRU.addEntry_maxBytes c k v
  refine ⟨c1, LRU.entries dropped, h1, ?_, ?_, ?_, ?_, ?_⟩
  · rw [← LRU.addEntry_entries h.inv, h3.ll, LRU.entries_append]
  · rw [LRU.pairsSize_entries, ← h2.bytes]
    have := h3.fits
    rw [hm] at this
    rcases this with h0 | h0
    · omega
    · exact h0
  · intro d1 d2 hd hd2
    obtain ⟨l1, l2, hl, hl1, hl2⟩ := List.map_eq_append_iff.1 hd
    have hl2ne : l2 ≠ [] := by
      intro h0
      rw [h0] at hl2
      exact hd2 hl2.symm
    have := (h3.longest l1 l2 hl hl2ne).2
    rw [hm, ← LRU.pairsSize_entries, LRU.entries_append] at this
    rw [← hl2]
    exact this
  · intro x
    rw [h2.resident_iff]
    simp [LRU.entries]
  · rw [h3.evicted, LRU.addEntry_evicted, LRU.addEntry_onEvicted]
    rfl

/-- C4 on `TestRemoveOldest` (maximum 20, callback installed): after `key1/value1`
and `key2/value2`, the call `Add("k3", "v3")` removes exactly `key1`; afterwards
`Get("key1")` is a miss, `Len()` is 2 and the callback has seen
`("key1", "value1")` and nothing else. -/
theorem LRU.eviction_is_least_recently_used_first_witness :
    (∃ c1 removed, LRU.Add LRU.testCache2 "k3" "v3" = some c1 ∧
      (LRU.entries LRU.testCache2.ll).filter (fun p => decide (p.1 ≠ "k3")) ++ [("k3", "v3")]
        = removed ++ LRU.entries c1.ll ∧
      LRU.pairsSize (LRU.entries c1.ll) ≤ LRU.testCache2.maxBytes ∧
      (∀ d1 d2, removed = d1 ++ d2 → d2 ≠ [] →
        LRU.testCache2.maxBytes < LRU.pairsSize (d2 ++ LRU.entries c1.ll)) ∧
      (∀ x, LRU.Resident c1 x ↔ x ∈ (LRU.entries c1.ll).map Prod.fst) ∧
      c1.evicted = LRU.testCache2.evicted ++
        (if LRU.testCache2.onEvicted then removed else [])) ∧
    LRU.Add LRU.testCache2 "k3" "v3" = some LRU.testCache ∧
    (LRU.Get LRU.testCache "key1").2 = none ∧
    LRU.Len LRU.testCache = 2 ∧
    LRU.entries LRU.testCache.ll = [("key2", "value2"), ("k3", "v3")] ∧
    LRU.testCache.evicted = [("key1", "value1")] :=
  ⟨LRU.eviction_is_least_recently_used_first LRU.testCache2 LRU.testCache2_reachable
      (by decide) "k3" "v3",
    rfl, by decide, by decide, by decide, by decide⟩

/-- C5: on a state reached from `New`, `Get(k)` of a resident key returns the
value stored for `k` with `ok = true` and moves that entry to the most recently
used end, keeping the other entries in their order and keeping the index, the
values, `nBytes` and all other fields; `Get(k)` of a key that is not resident
returns `ok = false` and the same state. -/
theorem LRU.get_updates_recency_only {V : Type} [LRU.Value V] (c : LRU.Cache V)
    (h : LRU.Reachable c) (k : String) :
    (LRU.Resident c k →
      ∃ l1 e l2, c.ll = l1 ++ e :: l2 ∧ e.key = k ∧
        LRU.Get c k = ({ c with ll := l1 ++ l2 ++ [e] }, some e.value)) ∧
    (¬ LRU.Resident c k → LRU.Get c k = (c, none)) := by
  constructor
  · intro hr
    obtain ⟨e, he, hek⟩ := (h.inv.resident_iff k).1 hr
    obtain ⟨l1, l2, h1, h2⟩ := LRU.Get_hit h.inv he
    exact ⟨l1, e, l2, h1, hek, hek ▸ h2⟩
  · intro hr
    apply LRU.Get_miss h.inv
    intro e he hek
    exact hr ((h.inv.resident_iff k).2 ⟨e, he, hek⟩)

/-- C5 on the state of `TestRemoveOldest` after its three `Add` calls, which
holds `key2` then `k3`: `Get("key2")` returns `"value2"` and leaves the order
`k3`, `key2`; `Get("key1")` is a miss that changes nothing. -/
theorem LRU.get_updates_recency_only_witness :
    LRU.Reachable LRU.testCache ∧
    ((LRU.Resident LRU.testCache "key2" →
      ∃ l1 e l2, LRU.testCache.ll = l1 ++ e :: l2 ∧ e.key = "key2" ∧
        LRU.Get LRU.testCache "key2"
          = ({ LRU.testCache with ll := l1 ++ l2 ++ [e] }, some e.value)) ∧
    (¬ LRU.Resident LRU.testCache "key2" →
      LRU.Get LRU.testCache "key2" = (LRU.testCache, none))) ∧
    LRU.Resident LRU.testCache "key2" ∧
    (LRU.Get LRU.testCache "key2").2 = some "value2" ∧
    LRU.entries (LRU.Get LRU.testCache "key2").1.ll = [("k3", "v3"), ("key2", "value2")] ∧
    ¬ LRU.Resident LRU.testCache "key1" ∧
    (LRU.Get LRU.testCache "key1").2 = none :=
  ⟨LRU.testCache_reachable,
    LRU.get_updates_recency_only LRU.testCache LRU.testCache_reachable "key2",
    by decide, by decide, by decide, by decide, by decide⟩

namespace ConsistenHash

theorem Cover.mono {m : Map} {S T : List String} (h : Cover m S) (hs : ∀ s ∈ S, s ∈ T) :
    Cover m T := by
  intro pos hp
  obtain ⟨s, hs1, hs2⟩ := h pos hp
  exact ⟨s, hs s hs1, hs2⟩

theorem addReplica_spec (m : Map) (key : String) (i : Nat) (S : List String) (h : Cover m S)
    (hk : key ∈ S) :
    (addReplica m key i).replicas = m.replicas ∧ (addReplica m key i).hash = m.hash ∧
      (addReplica m key i).keys.length = m.keys.length + 1 ∧
      Cover (addReplica m key i) S := by
  refine ⟨rfl, rfl, by simp [addReplica], ?_⟩
  intro pos hp
  simp only [addReplica] at hp ⊢
  by_cases hpos : pos = m.hash (key ++ Nat.repr i) % 4294967296
  · exact ⟨key, hk, by rw [if_pos hpos]⟩
  · rw [if_neg hpos]
    rcases List.mem_append.1 hp with hp | hp
    · exact h pos hp
    · exact absurd (List.mem_singleton.1 hp) hpos

theorem foldl_addReplica (key : String) (S : List String) (hk : key ∈ S) (is : List Nat) :
    ∀ m : Map, Cover m S →
      (is.foldl (fun m i => addReplica m key i) m).replicas = m.replicas ∧
      (is.foldl (fun m i => addReplica m key i) m).hash = m.hash ∧
      (is.foldl (fun m i => addReplica m key i) m).keys.length = m.keys.length + is.length ∧
      Cover (is.foldl (fun m i => addReplica m key i) m) S := by
  induction is with
  | nil =>
    intro m h
    exact ⟨rfl, rfl, rfl, h⟩
  | cons i is ih =>
    intro m h
    obtain ⟨h1, h2, h3, h4⟩ := addReplica_spec m key i S h hk
    obtain ⟨k1, k2, k3, k4⟩ := ih (addReplica m key i) h4
    rw [List.foldl_cons]
    refine ⟨k1.trans h1, k2.trans h2, ?_, k4⟩
    rw [k3, h3, List.length_cons]; omega

theorem addMember_spec (m : Map) (key : String) (S : List String) (h : Cover m S)
    (hk : key ∈ S) :
    (addMember m key).replicas = m.replicas ∧ (addMember m key).hash = m.hash ∧
      (addMember m key).keys.length = m.keys.length + m.replicas.toNat ∧
      Cover (addMember m key) S := by
  have := foldl_addReplica key S hk (List.range m.replicas.toNat) m h
  rw [List.length_range] at this
  exact this

theorem foldl_addMember (S : List String) (keys : List String) (hk : ∀ k ∈ keys, k ∈ S) :
    ∀ m : Map, Cover m S →
      (keys.foldl addMember m).replicas = m.replicas ∧
      (keys.foldl addMember m).hash = m.hash ∧
      (keys.foldl addMember m).keys.length = m.keys.length + keys.length * m.replicas.toNat ∧
      Cover (keys.foldl addMember m) S := by
  induction keys with
  | nil =>
    intro m h
    exact ⟨rfl, rfl, by simp, h⟩
  | cons k keys ih =>
    intro m h
    obtain ⟨h1, h2, h3, h4⟩ := addMember_spec m k S h (hk k (List.mem_cons_self _ _))
    obtain ⟨k1, k2, k3, k4⟩ := ih (fun x hx => hk x (List.mem_cons_of_mem _ hx))
      (addMember m k) h4
    rw [List.foldl_cons]
    refine ⟨k1.trans h1, k2.trans h2, ?_, k4⟩
    rw [k3, h3, h1, List.length_cons]; ring

/-- One call of `Add`: the positions are sorted afterwards, there are
`replicas` more of them for every listed member, and all are bound to members. -/
theorem Add_ring (m : Map) (keys : List String) (S : List String) (h : Cover m S) :
    (Add m keys).replicas = m.replicas ∧ (Add m keys).hash = m.hash ∧
      (Add m keys).keys.Sorted (· ≤ ·) ∧
      (Add m keys).keys.length = m.keys.length + keys.length * m.replicas.toNat ∧
      Cover (Add m keys) (S ++ keys) := by
  obtain ⟨h1, h2, h3, h4⟩ := foldl_addMember (S ++ keys) keys
    (fun k hk => List.mem_append_right _ hk) m
    (h.mono (fun s hs => List.mem_append_left _ hs))
  refine ⟨h1, h2, List.sorted_insertionSort _ _, ?_, ?_⟩
  · show ((keys.foldl addMember m).keys.insertionSort (· ≤ ·)).length = _
    rw [List.length_insertionSort, h3]
  · intro pos hp
    have hp1 : pos ∈ (keys.foldl addMember m).keys :=
      (List.mem_insertionSort (· ≤ ·)).1 hp
    exact h4 pos hp1

/-- The shape of every ring made by `New` and `Add` calls. -/
theorem ringOf_spec (replicas : Int) (fn : Option Hash) (adds : List (List String)) :
    (ringOf replicas fn adds).replicas = replicas ∧
      (ringOf replicas fn adds).hash = fn.getD ChecksumIEEE ∧
      (ringOf replicas fn adds).keys.Sorted (· ≤ ·) ∧
      (ringOf replicas fn adds).keys.length = adds.flatten.length * replicas.toNat ∧
      Cover (ringOf replicas fn adds) adds.flatten := by
  have key : ∀ (adds : List (List String)) (m : Map) (S : List String), Cover m S →
      m.keys.Sorted (· ≤ ·) →
      (adds.foldl Add m).replicas = m.replicas ∧ (adds.foldl Add m).hash = m.hash ∧
      (adds.foldl Add m).keys.Sorted (· ≤ ·) ∧
      (adds.foldl Add m).keys.length = m.keys.length + adds.flatten.length * m.replicas.toNat ∧
      Cover (adds.foldl Add m) (S ++ adds.flatten) := by
    intro adds
    induction adds with
    | nil =>
      intro m S h hs
      exact ⟨rfl, rfl, hs, by simp, by simpa using h⟩
    | cons a adds ih =>
      intro m S h hs
      obtain ⟨h1, h2, h3, h4, h5⟩ := Add_ring m a S h
      obtain ⟨k1, k2, k3, k4, k5⟩ := ih (Add m a) (S ++ a) h5 h3
      rw [List.foldl_cons]
      refine ⟨k1.trans h1, k2.trans h2, k3, ?_, ?_⟩
      · rw [k4, h4, h1, List.flatten_cons, List.length_append]; ring
      · rw [List.flatten_cons, ← List.append_assoc]; exact k5
  have h0 : Cover (New replicas fn) [] := by
    intro pos hp
    simp [New] at hp
  obtain ⟨h1, h2, h3, h4, h5⟩ := key adds (New replicas fn) [] h0 (by simp [New])
  refine ⟨h1, h2, h3, ?_, by simpa using h5⟩
  rw [show ringOf replicas fn adds = adds.foldl Add (New replicas fn) from rfl, h4]
  simp [New]

/-- The fuel that `Search` hands to its loop is enough: fuel beyond `j - i` is
never used, since every iteration brings `i` and `j` closer. -/
theorem searchLoop_fuel (f : Nat → Option Bool) :
    ∀ fuel i j, j - i ≤ fuel → searchLoop f (fuel + 1) i j = searchLoop f fuel i j := by
  intro fuel
  induction fuel with
  | zero =>
    intro i j h
    have : ¬ i < j := by omega
    simp [searchLoop, this]
  | succ fuel ih =>
    intro i j h
    rw [searchLoop, searchLoop]
    by_cases hlt : i < j
    · rw [if_pos hlt, if_pos hlt]
      dsimp only
      cases f ((i + j) / 2) with
      | none => rfl
      | some b =>
        cases b with
        | true => exact ih i ((i + j) / 2) (by omega)
        | false => exact ih ((i + j) / 2 + 1) j (by omega)
    · rw [if_neg hlt, if_neg hlt]

/-- The loop of `sort.Search` on a predicate that is defined and monotone on
`[0, n)` returns the least index at which the predicate holds, or `n`. -/
theorem searchLoop_spec (g : Nat → Bool) (n : Nat) (f : Nat → Option Bool)
    (hf : ∀ k, k < n → f k = some (g k))
    (hmono : ∀ a b, a ≤ b → b < n → g a = true → g b = true) :
    ∀ fuel i j, i ≤ j → j ≤ n → j - i ≤ fuel → (∀ k, k < i → g k = false) →
      (∀ k, j ≤ k → k < n → g k = true) →
      ∃ r, searchLoop f fuel i j = some r ∧ r ≤ n ∧ (∀ k, k < r → g k = false) ∧
        (∀ k, r ≤ k → k < n → g k = true) := by
  intro fuel
  induction fuel with
  | zero =>
    intro i j hij hjn hfuel hlo hhi
    have : i = j := by omega
    subst this
    exact ⟨i, rfl, hjn, hlo, hhi⟩
  | succ fuel ih =>
    intro i j hij hjn hfuel hlo hhi
    unfold searchLoop
    by_cases hlt : i < j
    · rw [if_pos hlt]
      have hh1 : i ≤ (i + j) / 2 := by omega
      have hh2 : (i + j) / 2 < j := by omega
      simp only [hf _ (lt_of_lt_of_le hh2 hjn)]
      cases hg : g ((i + j) / 2) with
      | true =>
        refine ih i ((i + j) / 2) hh1 (by omega) (by omega) hlo ?_
        intro k hk hkn
        exact hmono _ _ hk hkn hg
      | false =>
        refine ih ((i + j) / 2 + 1) j (by omega) hjn (by omega) ?_ hhi
        intro k hk
        cases hgk : g k with
        | false => rfl
        | true =>
          have := hmono k ((i + j) / 2) (by omega) (by omega) hgk
          rw [hg] at this
          exact absurd this (by simp)
    · rw [if_neg hlt]
      have : i = j := by omega
      subst this
      exact ⟨i, rfl, hjn, hlo, hhi⟩

/-- The lookup on a sorted, non-empty ring: it does not panic and answers with
the binding of a position of the ring, which is the least position not below
the key's hash or, when all positions are below it, the first and least
position of the ring. -/
theorem Get_sorted (m : Map) (key : String) (hs : m.keys.Sorted (· ≤ ·)) (hne : m.keys ≠ []) :
    ∃ pos ∈ m.keys, Get m key = some ((m.hashMap pos).getD "") ∧
      ((m.hash key % 4294967296 ≤ pos ∧
          ∀ q ∈ m.keys, m.hash key % 4294967296 ≤ q → pos ≤ q) ∨
        ((∀ q ∈ m.keys, q < m.hash key % 4294967296) ∧ m.keys.head? = some pos ∧
          ∀ q ∈ m.keys, pos ≤ q)) := by
  have hlen : 0 < m.keys.length := List.length_pos.2 hne
  have hlen0 : ¬ m.keys.length = 0 := by omega
  have hsorted : ∀ (a b : Nat) (ha : a < m.keys.length) (hb : b < m.keys.length), a ≤ b →
      m.keys[a] ≤ m.keys[b] := by
    intro a b ha hb hab
    exact hs.rel_get_of_le (a := ⟨a, ha⟩) (b := ⟨b, hb⟩) hab
  obtain ⟨r, hr1, hr2, hr3, hr4⟩ := searchLoop_spec
    (fun i => decide (m.keys.getD i 0 ≥ m.hash key % 4294967296)) m.keys.length
    (fun i => (m.keys[i]?).map (fun k => decide (k ≥ m.hash key % 4294967296)))
    (by
      intro k hk
      simp [List.getElem?_eq_getElem hk, List.getD_eq_getElem _ _ hk])
    (by
      intro a b hab hb ha
      have ha' : a < m.keys.length := by omega
      simp only [List.getD_eq_getElem _ _ ha', List.getD_eq_getElem _ _ hb,
        decide_eq_true_eq] at ha ⊢
      exact le_trans ha (hsorted a b ha' hb hab))
    m.keys.length 0 m.keys.length (Nat.zero_le _) (le_refl _) (by omega)
    (by intro k hk; omega) (by intro k hk hk2; omega)
  have hrm : r % m.keys.length < m.keys.length := Nat.mod_lt _ hlen
  have hG : Get m key = some ((m.hashMap m.keys[r % m.keys.length]).getD "") := by
    unfold Get
    rw [if_neg hlen0]
    simp only [Search]
    rw [hr1]
    simp only [List.getElem?_eq_getElem (Nat.mod_lt r hlen)]
  refine ⟨m.keys[r % m.keys.length], List.getElem_mem _, hG, ?_⟩
  rcases Nat.lt_or_ge r m.keys.length with hrn | hrn
  · left
    have hmod : r % m.keys.length = r := Nat.mod_eq_of_lt hrn
    simp only [hmod]
    clear hG
    have hgr := hr4 r (le_refl _) hrn
    simp only [List.getD_eq_getElem _ _ hrn, decide_eq_true_eq] at hgr
    refine ⟨hgr, ?_⟩
    intro q hq hqh
    obtain ⟨k, hk, rfl⟩ := List.mem_iff_getElem.1 hq
    rcases Nat.lt_or_ge k r with hkr | hkr
    · have := hr3 k hkr
      simp only [List.getD_eq_getElem _ _ hk, decide_eq_false_iff_not] at this
      exact absurd hqh this
    · exact hsorted r k hrn hk hkr
  · right
    have hrn' : r = m.keys.length := le_antisymm hr2 hrn
    have hmod : r % m.keys.length = 0 := by rw [hrn']; exact Nat.mod_self _
    simp only [hmod]
    refine ⟨?_, ?_, ?_⟩
    · intro q hq
      obtain ⟨k, hk, rfl⟩ := List.mem_iff_getElem.1 hq
      have := hr3 k (by omega)
      simp only [List.getD_eq_getElem _ _ hk, decide_eq_false_iff_not] at this
      omega
    · rw [List.head?_eq_getElem?, List.getElem?_eq_getElem hlen]
    · intro q hq
      obtain ⟨k, hk, rfl⟩ := List.mem_iff_getElem.1 hq
      exact hsorted 0 k hlen hk (Nat.zero_le _)

/-- On a sorted ring the lookup agrees with the lookup of the specification. -/
theorem Get_eq_GetSpec (m : Map) (key : String) (hs : m.keys.Sorted (· ≤ ·)) :
    Get m key = some (GetSpec m key) := by
  by_cases hne : m.keys = []
  · simp [Get, GetSpec, hne]
  · obtain ⟨pos, hp, hG, hcase⟩ := Get_sorted m key hs hne
    rw [hG]
    unfold GetSpec
    rw [if_neg hne]
    rcases hcase with ⟨h1, h2⟩ | ⟨h1, h2, _⟩
    · have hmin : (m.keys.filter (fun pos => decide (pos ≥ m.hash key % 4294967296))).min?
          = some pos := by
        rw [List.min?_eq_some_iff (fun a => le_refl a) (fun a b => min_choice a b)
          (fun a b c => le_min_iff)]
        refine ⟨List.mem_filter.2 ⟨hp, by simpa using h1⟩, ?_⟩
        intro b hb
        have hb' := List.mem_filter.1 hb
        exact h2 b hb'.1 (by simpa using hb'.2)
      simp only [hmin]
    · have hnil : m.keys.filter (fun pos => decide (pos ≥ m.hash key % 4294967296)) = [] := by
        rw [List.filter_eq_nil_iff]
        intro q hq
        have := h1 q hq
        simp only [ge_iff_le, decide_eq_true_eq, not_le]
        exact this
      simp only [hnil, List.min?_nil, h2]

end ConsistenHash

/-- C7: on every ring made by `New` and any number of `Add` calls, `Get(key)`
does not panic and returns what the lookup of the specification returns: the
empty string when the ring has no positions; otherwise the member that the index
binds to the smallest position that is at least `h(key)`; and when every
position is below `h(key)`, the member bound to the first position, which is the
smallest one. -/
theorem ConsistenHash.get_equals_reference_lookup (replicas : Int)
    (fn : Option ConsistenHash.Hash) (adds : List (List String)) (key : String) :
    ConsistenHash.Get (ConsistenHash.ringOf replicas fn adds) key
        = some (ConsistenHash.GetSpec (ConsistenHash.ringOf replicas fn adds) key) ∧
    ((ConsistenHash.ringOf replicas fn adds).keys = [] →
      ConsistenHash.Get (ConsistenHash.ringOf replicas fn adds) key = some "") ∧
    (∀ pos ∈ (ConsistenHash.ringOf replicas fn adds).keys,
      (ConsistenHash.ringOf replicas fn adds).hash key % 4294967296 ≤ pos →
      (∀ q ∈ (ConsistenHash.ringOf replicas fn adds).keys,
        (ConsistenHash.ringOf replicas fn adds).hash key % 4294967296 ≤ q → pos ≤ q) →
      ∃ member, (ConsistenHash.ringOf replicas fn adds).hashMap pos = some member ∧
        ConsistenHash.Get (ConsistenHash.ringOf replicas fn adds) key = some member) ∧
    ((∀ q ∈ (ConsistenHash.ringOf replicas fn adds).keys,
        q < (ConsistenHash.ringOf replicas fn adds).hash key % 4294967296) →
      ∀ pos, (ConsistenHash.ringOf replicas fn adds).keys.head? = some pos →
        (∀ q ∈ (ConsistenHash.ringOf replicas fn adds).keys, pos ≤ q) ∧
        ∃ member, (ConsistenHash.ringOf replicas fn adds).hashMap pos = some member ∧
          ConsistenHash.Get (ConsistenHash.ringOf replicas fn adds) key = some member) := by
  obtain ⟨_, _, hs, _, hcov⟩ := ConsistenHash.ringOf_spec replicas fn adds
  generalize ConsistenHash.ringOf replicas fn adds = m at hs hcov ⊢
  refine ⟨ConsistenHash.Get_eq_GetSpec m key hs, ?_, ?_, ?_⟩
  · intro h0
    simp [ConsistenHash.Get, h0]
  · intro pos hp hge hmin
    have hne : m.keys ≠ [] := List.ne_nil_of_mem hp
    obtain ⟨p, hp1, hG, hcase⟩ := ConsistenHash.Get_sorted m key hs hne
    obtain ⟨s, _, hs2⟩ := hcov pos hp
    refine ⟨s, hs2, ?_⟩
    rcases hcase with ⟨h1, h2⟩ | ⟨h1, _, _⟩
    · have : p = pos := le_antisymm (h2 pos hp hge) (hmin p hp1 h1)
      rw [hG, this, hs2]; rfl
    · exact absurd (h1 pos hp) (not_lt.2 hge)
  · intro hall pos hhead
    have hne : m.keys ≠ [] := by
      intro h0
      rw [h0] at hhead
      simp at hhead
    obtain ⟨p, hp1, hG, hcase⟩ := ConsistenHash.Get_sorted m key hs hne
    rcases hcase with ⟨h1, _⟩ | ⟨_, h2, h3⟩
    · exact absurd (hall p hp1) (not_lt.2 h1)
    · have : p = pos := Option.some.inj (h2.symm.trans hhead)
      subst this
      obtain ⟨s, _, hs2⟩ := hcov p hp1
      exact ⟨h3, s, hs2, by rw [hG, hs2]; rfl⟩

/-- C7 on the ring of the scenario (positions 20, 21, 22, 40, ..., 62): the key
`"23"` has the smallest position at or above it at 40, bound to `"4"`; the key
`"63"` is above every position and gets the member `"2"` of the first position
20. -/
theorem ConsistenHash.get_equals_reference_lookup_witness :
    (∃ member, (ConsistenHash.ringOf 3 (some ConsistenHash.decimalHash)
        [["6", "4", "2"]]).hashMap 40 = some member ∧
      ConsistenHash.Get (ConsistenHash.ringOf 3 (some ConsistenHash.decimalHash)
        [["6", "4", "2"]]) "23" = some member) ∧
    ((∀ q ∈ (ConsistenHash.ringOf 3 (some ConsistenHash.decimalHash)
        [["6", "4", "2"]]).keys, 20 ≤ q) ∧
      ∃ member, (ConsistenHash.ringOf 3 (some ConsistenHash.decimalHash)
        [["6", "4", "2"]]).hashMap 20 = some member ∧
      ConsistenHash.Get (ConsistenHash.ringOf 3 (some ConsistenHash.decimalHash)
        [["6", "4", "2"]]) "63" = some member) ∧
    ConsistenHash.Get (ConsistenHash.ringOf 3 (some ConsistenHash.decimalHash)
        [["6", "4", "2"]]) "23" = some "4" ∧
    ConsistenHash.Get (ConsistenHash.ringOf 3 (some ConsistenHash.decimalHash)
        [["6", "4", "2"]]) "63" = some "2" :=
  ⟨(ConsistenHash.get_equals_reference_lookup 3 (some ConsistenHash.decimalHash)
      [["6", "4", "2"]] "23").2.2.1 40 (by decide) (by decide) (by decide),
    (ConsistenHash.get_equals_reference_lookup 3 (some ConsistenHash.decimalHash)
      [["6", "4", "2"]] "63").2.2.2 (by decide) 20 (by decide),
    by decide, by decide⟩

/-- C8, as stated, fails when the empty string is a member: on the ring with
replication 1 whose only member is `""` (one position, 0), `Get("5")` returns
the empty string. -/
theorem ConsistenHash.get_returns_empty_member :
    "" ∈ [[""]].flatten ∧ ConsistenHash.emptyMemberRing.keys = [0] ∧
      ConsistenHash.Get ConsistenHash.emptyMemberRing "5" = some "" := by
  decide

/-- C8, amended: on every ring with at least one position, made by `New` and
`Add` calls listing the members `S` under any hash function, `Get(k)` does not
panic (its indices are in bounds); the position it reads is in the ring and is
bound by the index to a member, that member is in `S` and is the result. So the
result is never a non-member, and it is the empty string only if the empty
string is one of the members. `Get` only reads the ring, so the same ring gives
the same answer again. -/
theorem ConsistenHash.get_returns_member (replicas : Int) (fn : Option ConsistenHash.Hash)
    (adds : List (List String)) (key : String)
    (hne : (ConsistenHash.ringOf replicas fn adds).keys ≠ []) :
    ∃ pos member, pos ∈ (ConsistenHash.ringOf replicas fn adds).keys ∧
      (ConsistenHash.ringOf replicas fn adds).hashMap pos = some member ∧
      ConsistenHash.Get (ConsistenHash.ringOf replicas fn adds) key = some member ∧
      member ∈ adds.flatten ∧ ("" ∉ adds.flatten → member ≠ "") := by
  obtain ⟨_, _, hs, _, hcov⟩ := ConsistenHash.ringOf_spec replicas fn adds
  obtain ⟨pos, hp, hG, _⟩ := ConsistenHash.Get_sorted _ key hs hne
  obtain ⟨s, hs1, hs2⟩ := hcov pos hp
  refine ⟨pos, s, hp, hs2, by rw [hG, hs2]; rfl, hs1, ?_⟩
  intro h0 hs0
  exact h0 (hs0 ▸ hs1)

/-- C8, amended, on the ring of the scenario and the key `"27"`. -/
theorem ConsistenHash.get_returns_member_witness :
    (ConsistenHash.ringOf 3 (some ConsistenHash.decimalHash) [["6", "4", "2"]]).keys ≠ [] ∧
    ∃ pos member,
      pos ∈ (ConsistenHash.ringOf 3 (some ConsistenHash.decimalHash) [["6", "4", "2"]]).keys ∧
      (ConsistenHash.ringOf 3 (some ConsistenHash.decimalHash) [["6", "4", "2"]]).hashMap pos
        = some member ∧
      ConsistenHash.Get (ConsistenHash.ringOf 3 (some ConsistenHash.decimalHash)
        [["6", "4", "2"]]) "27" = some member ∧
      member ∈ [["6", "4", "2"]].flatten ∧ ("" ∉ [["6", "4", "2"]].flatten → member ≠ "") :=
  ⟨by decide,
    ConsistenHash.get_returns_member 3 (some ConsistenHash.decimalHash) [["6", "4", "2"]] "27"
      (by decide)⟩

/-- C9, as stated, fails: with the decimal hash, replication 3 and the members
`"6"`, `"4"`, `"2"` the positions are not 2, 4, 6, 12, 14, 16, 22, 24, 26, and
`Get("27")` is not `"2"`. -/
theorem ConsistenHash.scenario_as_stated_fails :
    ¬ (ConsistenHash.testRing.keys = [2, 4, 6, 12, 14, 16, 22, 24, 26] ∧
      ConsistenHash.Get ConsistenHash.testRing "2" = some "2" ∧
      ConsistenHash.Get ConsistenHash.testRing "11" = some "2" ∧
      ConsistenHash.Get ConsistenHash.testRing "23" = some "4" ∧
      ConsistenHash.Get ConsistenHash.testRing "27" = some "2") ∧
    ConsistenHash.testRing.keys ≠ [2, 4, 6, 12, 14, 16, 22, 24, 26] ∧
    ConsistenHash.Get ConsistenHash.testRing "27" ≠ some "2" := by
  decide

/-- C9, amended: `Add` hashes the member followed by the replica number, so
with the decimal hash, replication 3 and the members `"6"`, `"4"`, `"2"` the
positions are exactly 20, 21, 22, 40, 41, 42, 60, 61, 62, bound to `"2"`, `"4"`
and `"6"` by their first digit; `Get("2")`, `Get("11")` are `"2"`, `Get("23")`
and `Get("27")` are `"4"`, and `Get("63")` wraps around to `"2"`. -/
theorem ConsistenHash.scenario_positions_and_owners :
    ConsistenHash.testRing.keys = [20, 21, 22, 40, 41, 42, 60, 61, 62] ∧
    ConsistenHash.testRing.keys.map ConsistenHash.testRing.hashMap
      = [some "2", some "2", some "2", some "4", some "4", some "4",
         some "6", some "6", some "6"] ∧
    ConsistenHash.Get ConsistenHash.testRing "2" = some "2" ∧
    ConsistenHash.Get ConsistenHash.testRing "11" = some "2" ∧
    ConsistenHash.Get ConsistenHash.testRing "23" = some "4" ∧
    ConsistenHash.Get ConsistenHash.testRing "27" = some "4" ∧
    ConsistenHash.Get ConsistenHash.testRing "63" = some "2" := by
  decide

namespace ConsistenHash

/-- A ring under a hash that sends every input to 7, with replication 2 and
two `Add` calls listing three members: six positions, all equal, and the index
keeps the member added last. -/
theorem colliding_ring :
    (ringOf 2 (some (fun _ => 7)) [["a", "b"], ["c"]]).keys = [7, 7, 7, 7, 7, 7] ∧
    (ringOf 2 (some (fun _ => 7)) [["a", "b"], ["c"]]).hashMap 7 = some "c" := by
  decide

end ConsistenHash

/-- C10: on a ring made with replication `R`, after every sequence of `Add`
calls (so after each call) whose arguments list `|S|` members in total, the
positions are sorted in non-decreasing order and there are exactly `|S| * R` of
them, whatever the hash function and its collisions. Stated for every count `R`
and, for the `int` that `New` takes, with a replication below zero counting as
zero (the loop of `Add` does not run). -/
theorem ConsistenHash.ring_sorted_with_all_replicas (fn : Option ConsistenHash.Hash)
    (adds : List (List String)) :
    (∀ R : Nat,
      (ConsistenHash.ringOf (R : Int) fn adds).keys.Sorted (· ≤ ·) ∧
      (ConsistenHash.ringOf (R : Int) fn adds).keys.length = adds.flatten.length * R) ∧
    (∀ replicas : Int,
      (ConsistenHash.ringOf replicas fn adds).keys.Sorted (· ≤ ·) ∧
      (ConsistenHash.ringOf replicas fn adds).keys.length
        = adds.flatten.length * replicas.toNat) := by
  have key : ∀ replicas : Int,
      (ConsistenHash.ringOf replicas fn adds).keys.Sorted (· ≤ ·) ∧
      (ConsistenHash.ringOf replicas fn adds).keys.length
        = adds.flatten.length * replicas.toNat := by
    intro replicas
    obtain ⟨_, _, hs, hl, _⟩ := ConsistenHash.ringOf_spec replicas fn adds
    exact ⟨hs, hl⟩
  refine ⟨fun R => ?_, key⟩
  have := key (R : Int)
  rw [Int.toNat_ofNat] at this
  exact this

namespace MyCache

theorem Do_idle {α : Type} {g : Singleflight.Group} (h : g.m = none ∨ g.m = some [])
    (key : String) (fn : Unit → α) :
    Singleflight.Do g key fn = some (fn (), { m := some [] }) := by
  rcases h with h | h <;> simp [Singleflight.Do, h]

theorem GroupInv.weaken {g : Group} {s t : List String} (h : GroupInv g s)
    (hst : ∀ x ∈ s, x ∈ t) : GroupInv g t :=
  ⟨h.peers, h.idle, h.lru, fun x hx => hst x (h.loads x hx),
    fun l hl e he => hst _ (h.cached l hl e he)⟩

/-- The LRU that `cache.add` works on satisfies the invariant of the LRU and has
the budget of the group; only keys in `seen` are in it. -/
theorem GroupInv.getD {g : Group} {seen : List String} (h : GroupInv g seen) :
    LRU.Inv (g.mainCache.lru.getD (LRU.New g.mainCache.cacheBytes false)) ∧
    (g.mainCache.lru.getD (LRU.New g.mainCache.cacheBytes false)).maxBytes
      = g.mainCache.cacheBytes ∧
    ∀ e ∈ (g.mainCache.lru.getD (LRU.New g.mainCache.cacheBytes false)).ll, e.key ∈ seen := by
  cases hl : g.mainCache.lru with
  | none =>
    refine ⟨LRU.Inv.New _ _, rfl, ?_⟩
    intro e he
    simp [LRU.New] at he
  | some l =>
    exact ⟨(h.lru l hl).1, (h.lru l hl).2, h.cached l hl⟩

/-- The path of `Get` on a key that is not cached, in a group without peers:
the loader is called once; its error is passed on, its bytes are returned and
handed to the LRU. -/
theorem Get_miss_path {g : Group} {seen : List String} (h : GroupInv g seen) {k : String}
    (hk : k ≠ "")
    (hmiss : ∀ e ∈ (g.mainCache.lru.getD (LRU.New g.mainCache.cacheBytes false)).ll,
      e.key ≠ k) :
    g.Get k =
      match g.getter k with
      | .error err =>
        some (.error err, { g with loads := g.loads ++ [k], loader := { m := some [] } })
      | .ok bytes =>
        (LRU.Add (g.mainCache.lru.getD (LRU.New g.mainCache.cacheBytes false)) k
            ({ b := bytes } : ByteView)).map
          (fun l => (.ok { b := bytes },
            { g with
              loads := g.loads ++ [k]
              loader := { m := some [] }
              mainCache := { g.mainCache with lru := some l } })) := by
  have hget : g.mainCache.get k = (g.mainCache, none) := by
    unfold cache.get
    cases hl : g.mainCache.lru with
    | none => rfl
    | some l =>
      rw [hl] at hmiss
      have := LRU.Get_miss (h.lru l hl).1 hmiss
      simp only [this]
      rw [← hl]
  unfold Group.Get
  rw [if_neg hk]
  simp only [hget]
  unfold Group.load
  simp only [h.peers]
  rw [Do_idle h.idle]
  unfold Group.getLocally
  cases hg : g.getter k with
  | error err => rfl
  | ok bytes =>
    simp only [Group.populateCache, cache.add, cloneBytes]
    cases hadd : LRU.Add (g.mainCache.lru.getD (LRU.New g.mainCache.cacheBytes false)) k
        ({ b := bytes } : ByteView) with
    | none => rfl
    | some l => rfl

/-- The path of `Get` on a cached key: the value of the LRU, no load. -/
theorem Get_hit_path {g : Group} {seen : List String} (h : GroupInv g seen) {k : String}
    (hk : k ≠ "") {l : LRU.Cache ByteView} (hl : g.mainCache.lru = some l)
    {e : LRU.Element ByteView} (he : e ∈ l.ll) (hek : e.key = k) :
    g.Get k = some (.ok e.value,
      { g with mainCache := { g.mainCache with lru := some (LRU.Get l k).1 } }) := by
  obtain ⟨l1, l2, _, h2⟩ := LRU.Get_hit (h.lru l hl).1 he
  rw [hek] at h2
  unfold Group.Get
  rw [if_neg hk]
  unfold cache.get
  simp only [hl, h2]

/-- Every `Get` that returns keeps the invariant of the group, its loader and
its budget. -/
theorem Get_inv {g g1 : Group} {seen : List String} (h : GroupInv g seen) {k : String}
    {r : Except Error ByteView} (hg : g.Get k = some (r, g1)) :
    GroupInv g1 (seen ++ [k]) ∧ g1.getter = g.getter ∧
      g1.mainCache.cacheBytes = g.mainCache.cacheBytes := by
  have hsub : ∀ x ∈ seen, x ∈ seen ++ [k] := fun x hx => List.mem_append_left _ hx
  by_cases hk : k = ""
  · unfold Group.Get at hg
    rw [if_pos hk] at hg
    have := (Prod.mk.inj (Option.some.inj hg)).2
    subst this
    exact ⟨h.weaken hsub, rfl, rfl⟩
  · obtain ⟨hinv, hmax, hkeys⟩ := h.getD
    by_cases hres : ∃ e ∈ (g.mainCache.lru.getD (LRU.New g.mainCache.cacheBytes false)).ll,
        e.key = k
    · obtain ⟨e, he, hek⟩ := hres
      cases hl : g.mainCache.lru with
      | none => rw [hl] at he; simp [LRU.New] at he
      | some l =>
        rw [hl] at he hinv hmax hkeys
        simp only [Option.getD_some] at he hinv hmax hkeys
        rw [Get_hit_path h hk hl he hek] at hg
        have := (Prod.mk.inj (Option.some.inj hg)).2
        subst this
        refine ⟨⟨h.peers, h.idle, ?_, fun x hx => hsub x (h.loads x hx), ?_⟩, rfl, rfl⟩
        · intro l1 hl1
          have : l1 = (LRU.Get l k).1 := (Option.some.inj hl1).symm
          subst this
          exact ⟨hinv.Get k, (LRU.Get_fields l k).1.trans hmax⟩
        · intro l1 hl1 x hx
          have : l1 = (LRU.Get l k).1 := (Option.some.inj hl1).symm
          subst this
          rcases LRU.step_keys hinv
              (show LRU.step l (.get k) = some (LRU.Get l k).1 from rfl) x hx with h1 | h1
          · obtain ⟨y, hy, hyx⟩ := List.mem_map.1 h1
            rw [← hyx]
            exact hsub _ (hkeys y hy)
          · simp [LRU.addedKeys] at h1
    · have hmiss : ∀ e ∈ (g.mainCache.lru.getD (LRU.New g.mainCache.cacheBytes false)).ll,
          e.key ≠ k := by simpa using hres
      rw [Get_miss_path h hk hmiss] at hg
      have hloads : ∀ x ∈ g.loads ++ [k], x ∈ seen ++ [k] := by
        intro x hx
        rcases List.mem_append.1 hx with hx | hx
        · exact hsub x (h.loads x hx)
        · exact List.mem_append_right _ hx
      cases hgk : g.getter k with
      | error err =>
        rw [hgk] at hg
        have := (Prod.mk.inj (Option.some.inj hg)).2
        subst this
        exact ⟨⟨h.peers, Or.inr rfl, h.lru, hloads,
          fun l hl e he => hsub _ (h.cached l hl e he)⟩, rfl, rfl⟩
      | ok bytes =>
        rw [hgk] at hg
        simp only at hg
        cases hadd : LRU.Add (g.mainCache.lru.getD (LRU.New g.mainCache.cacheBytes false)) k
            ({ b := bytes } : ByteView) with
        | none => rw [hadd] at hg; simp at hg
        | some l1 =>
          rw [hadd] at hg
          have := (Prod.mk.inj (Option.some.inj hg)).2
          subst this
          obtain ⟨h1, h2, _, _⟩ := LRU.step_inv hinv
            (show LRU.step _ (.add k ⟨bytes⟩) = some l1 from hadd)
          refine ⟨⟨h.peers, Or.inr rfl, ?_, hloads, ?_⟩, rfl, rfl⟩
          · intro l2 hl2
            have : l2 = l1 := (Option.some.inj hl2).symm
            subst this
            exact ⟨h1, h2.trans hmax⟩
          · intro l2 hl2 x hx
            have : l2 = l1 := (Option.some.inj hl2).symm
            subst this
            rcases LRU.step_keys hinv
              (show LRU.step _ (.add k ⟨bytes⟩) = some l2 from hadd) x hx with h3 | h3
            · obtain ⟨y, hy, hyx⟩ := List.mem_map.1 h3
              rw [← hyx]
              exact hsub _ (hkeys y hy)
            · simp only [LRU.addedKeys, List.mem_singleton] at h3
              rw [h3]
              exact List.mem_append_right _ (List.mem_singleton_self _)

theorem NewGroup_inv (name : String) (cacheBytes : Int) (getter : Getter) :
    GroupInv (NewGroup name cacheBytes getter) [] := by
  refine ⟨rfl, Or.inl rfl, ?_, ?_, ?_⟩
  · intro l hl; simp [NewGroup] at hl
  · intro x hx; simp [NewGroup] at hx
  · intro l hl; simp [NewGroup] at hl

theorem gets_inv {keys : List String} {g g1 : Group} {seen : List String}
    (h : GroupInv g seen) (hr : g.gets keys = some g1) :
    GroupInv g1 (seen ++ keys) ∧ g1.getter = g.getter ∧
      g1.mainCache.cacheBytes = g.mainCache.cacheBytes := by
  induction keys generalizing g seen with
  | nil =>
    have := Option.some.inj hr
    subst this
    exact ⟨by simpa using h, rfl, rfl⟩
  | cons k keys ih =>
    simp only [Group.gets] at hr
    cases hg : g.Get k with
    | none => rw [hg] at hr; simp at hr
    | some r =>
      rw [hg] at hr
      obtain ⟨h1, h2, h3⟩ := @Get_inv g r.2 seen h k r.1 hg
      obtain ⟨k1, k2, k3⟩ := ih h1 hr
      refine ⟨?_, k2.trans h2, k3.trans h3⟩
      rw [List.append_assoc] at k1
      exact k1

end MyCache

/-- C6, as stated, fails for a budget that the entry does not fit in: in the
group of `TestGet` made with `maxBytes = 1`, both `Get("Tom")` calls return the
bytes of `"630"`, and the loader has been called twice for `"Tom"`. -/
theorem MyCache.get_twice_loads_twice_when_oversized :
    MyCache.tinyGroup.peers = none ∧
    MyCache.tinyGroup.getter "Tom" = .ok [54, 51, 48] ∧
    ∃ g1 g2, MyCache.tinyGroup.Get "Tom" = some (.ok { b := [54, 51, 48] }, g1) ∧
      g1.Get "Tom" = some (.ok { b := [54, 51, 48] }, g2) ∧
      g2.loads = ["Tom", "Tom"] ∧ g2.loads.count "Tom" ≠ 1 :=
  ⟨rfl, rfl, _, _, rfl, rfl, rfl, by decide⟩

/-- C6, amended: in a group without peers, made by `NewGroup` with a budget
`maxBytes` that is 0 or at least `len(k)` plus the length of the loader's bytes
for `k`, after any earlier `Get` calls for other keys, for a non-empty key `k`
on which the pure loader succeeds, two `Get(k)` calls in sequence both return,
both with the loader's bytes for `k`; the first calls the loader once, the
second does not call it, and so the loader has been called exactly once for
`k`. -/
theorem MyCache.get_twice_loads_once (name : String) (maxBytes : Int)
    (getter : MyCache.Getter) (earlier : List String) (g : MyCache.Group)
    (hr : (MyCache.NewGroup name maxBytes getter).gets earlier = some g)
    (k : String) (bytes : List UInt8) (hk : k ≠ "") (hnew : k ∉ earlier)
    (hload : getter k = .ok bytes)
    (hcap : maxBytes = 0 ∨ (k.utf8ByteSize : Int) + (bytes.length : Int) ≤ maxBytes) :
    ∃ g1 g2, g.Get k = some (.ok { b := bytes }, g1) ∧
      g1.Get k = some (.ok { b := bytes }, g2) ∧
      g1.loads = g.loads ++ [k] ∧ g2.loads = g1.loads ∧ g2.loads.count k = 1 := by
  obtain ⟨hinv, hget, hcb⟩ := MyCache.gets_inv (MyCache.NewGroup_inv name maxBytes getter) hr
  rw [List.nil_append] at hinv
  have hcb' : g.mainCache.cacheBytes = maxBytes := hcb
  have hget' : g.getter k = .ok bytes := by rw [hget]; exact hload
  obtain ⟨hlinv, hmax, hkeys⟩ := hinv.getD
  have hmiss : ∀ e ∈ (g.mainCache.lru.getD (LRU.New g.mainCache.cacheBytes false)).ll,
      e.key ≠ k := fun e he hek => hnew (hek ▸ hkeys e he)
  have hM : 0 ≤ (g.mainCache.lru.getD (LRU.New g.mainCache.cacheBytes false)).maxBytes := by
    rw [hmax, hcb']
    rcases hcap with h0 | h0
    · omega
    · exact le_trans (by positivity) h0
  obtain ⟨c1, hadd, hc1, _, hstay, _⟩ := LRU.Add_last hlinv hM k ({ b := bytes } : MyCache.ByteView)
  obtain ⟨e, he, hek, hev⟩ := hstay (by rw [hmax, hcb']; exact hcap)
  have h1 := MyCache.Get_miss_path hinv hk hmiss
  rw [hget'] at h1
  simp only [hadd, Option.map_some'] at h1
  obtain ⟨hinv1, _, _⟩ := MyCache.Get_inv hinv h1
  have h2 := MyCache.Get_hit_path hinv1 hk (l := c1) rfl he hek
  rw [hev] at h2
  refine ⟨_, _, h1, h2, rfl, rfl, ?_⟩
  show (g.loads ++ [k]).count k = 1
  have h0 : g.loads.count k = 0 :=
    List.count_eq_zero.2 (fun hx => hnew (hinv.loads k hx))
  rw [List.count_append, h0]
  simp

/-- C6, amended, on the group of `TestGet` (`maxBytes = 2048`, a loader that
knows `"Tom"`, `"Jack"` and `"Sam"`) after an earlier `Get("Sam")`: two
`Get("Tom")` calls return the bytes of `"630"` and load `"Tom"` once. -/
theorem MyCache.get_twice_loads_once_witness :
    MyCache.scoresGroup.gets ["Sam"] = some MyCache.scoresGroupSam ∧
    ∃ g1 g2 : MyCache.Group,
      MyCache.scoresGroupSam.Get "Tom" = some (.ok { b := [54, 51, 48] }, g1) ∧
      g1.Get "Tom" = some (.ok { b := [54, 51, 48] }, g2) ∧
      g1.loads = MyCache.scoresGroupSam.loads ++ ["Tom"] ∧ g2.loads = g1.loads ∧
      g2.loads.count "Tom" = 1 :=
  ⟨rfl, MyCache.get_twice_loads_once "scores" 2048 MyCache.db ["Sam"] MyCache.scoresGroupSam
    rfl "Tom" [54, 51, 48] (by decide) (by decide) rfl (Or.inr (by decide))⟩

namespace LRU

variable {V : Type}

/-- A result of the eviction loop is the state after some number of
`RemoveOldest` calls, fewer than the fuel; the loop condition held before each
of them and fails at the end. -/
theorem evictLoop_iterate [Value V] {fuel : Nat} {c c1 : Cache V}
    (h : evictLoop fuel c = some c1) :
    ∃ n, n < fuel ∧ c1 = Nat.iterate RemoveOldest n c ∧ ¬ overBudget c1 ∧
      ∀ j, j < n → overBudget (Nat.iterate RemoveOldest j c) := by
  induction fuel generalizing c with
  | zero => simp [evictLoop] at h
  | succ fuel ih =>
    unfold evictLoop at h
    split at h
    · rename_i hc
      obtain ⟨n, hn, h1, h2, h3⟩ := ih h
      refine ⟨n + 1, by omega, ?_, h2, ?_⟩
      · rw [Function.iterate_succ_apply]; exact h1
      · intro j hj
        cases j with
        | zero => exact hc
        | succ j =>
          rw [Function.iterate_succ_apply]
          exact h3 j (by omega)
    · rename_i hc
      have hcc := Option.some.inj h
      subst hcc
      exact ⟨0, by omega, rfl, hc, fun j hj => absurd hj (by omega)⟩

theorem addEntry_length [Value V] {c : Cache V} (h : Inv c) (k : String) (v : V) :
    (addEntry c k v).ll.length ≤ c.ll.length + 1 := by
  by_cases hk : ∃ e ∈ c.ll, e.key = k
  · obtain ⟨e, he, rfl⟩ := hk
    obtain ⟨l1, l2, h1, h2⟩ := addEntry_hit h he v
    rw [h2, h1]
    simp only [List.length_append, List.length_cons, List.length_nil]
    omega
  · have hk1 : ∀ e ∈ c.ll, e.key ≠ k := by simpa using hk
    rw [addEntry_miss h hk1]
    simp

/-- The entries of other keys that the first part of `Add` leaves in the list
were in the list before. -/
theorem addEntry_others [Value V] {c : Cache V} (h : Inv c) (k : String) (v : V) :
    ∀ e ∈ (addEntry c k v).ll, e.key ≠ k → e ∈ c.ll := by
  intro e he hek
  by_cases hk : ∃ x ∈ c.ll, x.key = k
  · obtain ⟨x, hx, rfl⟩ := hk
    obtain ⟨l1, l2, h1, h2⟩ := addEntry_hit h hx v
    rw [h2] at he
    have he1 : e ∈ l1 ++ l2 ++ [{ x with value := v }] := he
    rw [h1]
    rcases List.mem_append.1 he1 with hA | hB
    · rcases List.mem_append.1 hA with hA | hA
      · exact List.mem_append_left _ hA
      · exact List.mem_append_right _ (List.mem_cons_of_mem _ hA)
    · rw [List.mem_singleton] at hB
      rw [hB] at hek
      exact absurd rfl hek
  · have hk1 : ∀ x ∈ c.ll, x.key ≠ k := by simpa using hk
    rw [addEntry_miss h hk1] at he
    have he1 : e ∈ c.ll ++ [(⟨c.nextId, k, v⟩ : Element V)] := he
    rcases List.mem_append.1 he1 with he1 | he1
    · exact he1
    · rw [List.mem_singleton] at he1
      rw [he1] at hek
      exact absurd rfl hek

end LRU

/-- C12, as stated, fails for a maximum below zero: on the cache `New(-1, nil)`
the call `Add("k", "v")` does not return. Once the only entry is removed the
list is empty and `nBytes = 0` still exceeds `-1`, so that the loop goes on
calling `RemoveOldest`, which changes nothing: no amount of fuel ends it. -/
theorem LRU.add_spins_on_negative_maximum :
    LRU.Reachable (LRU.New (-1) false : LRU.Cache String) ∧
    LRU.Add (LRU.New (-1) false : LRU.Cache String) "k" "v" = none ∧
    ∀ fuel, LRU.evictLoop fuel
      (LRU.addEntry (LRU.New (-1) false : LRU.Cache String) "k" "v") = none :=
  ⟨⟨-1, false, [], rfl⟩, rfl, LRU.evictLoop_fuel _ rfl⟩

/-- C12, amended: on every state reached from `New` with a maximum that is not
negative, for every key and value, `Add` returns: its eviction loop ends after
`n` calls of `RemoveOldest`, with `n` at most the number of entries, the new one
included. Entries of other keys that remain were resident before the `Add`.
When the entry alone exceeds a positive maximum, the final state has that entry
absent, and every remaining entry was resident before. -/
theorem LRU.add_terminates {V : Type} [LRU.Value V] (c : LRU.Cache V)
    (h : LRU.Reachable c) (hM : 0 ≤ c.maxBytes) (k : String) (v : V) :
    ∃ n c1, LRU.Add c k v = some c1 ∧ n ≤ c.ll.length + 1 ∧
      c1 = Nat.iterate LRU.RemoveOldest n (LRU.addEntry c k v) ∧
      ¬ LRU.overBudget c1 ∧
      (∀ e ∈ c1.ll, e.key ≠ k → e ∈ c.ll) ∧
      (0 < c.maxBytes →
        c.maxBytes < (k.utf8ByteSize : Int) + (LRU.Value.Len v : Int) →
        ¬ LRU.Resident c1 k ∧ (∀ e ∈ c1.ll, e.key ≠ k) ∧ ∀ e ∈ c1.ll, e ∈ c.ll) := by
  obtain ⟨c1, h1, h2, _, _, h5⟩ := LRU.Add_last h.inv hM k v
  obtain ⟨n, hn, h6, h7, _⟩ := LRU.evictLoop_iterate h1
  have hlen := LRU.addEntry_length h.inv k v
  refine ⟨n, c1, h1, by omega, h6, h7, ?_, ?_⟩
  · intro e he hek
    exact LRU.addEntry_others h.inv k v e (LRU.evictLoop_sub h1 e he) hek
  · intro hpos hbig
    have hnil := h5 hpos hbig
    refine ⟨?_, ?_, ?_⟩
    · rw [h2.resident_iff, hnil]; simp
    · rw [hnil]; simp
    · rw [hnil]; simp

/-- C12, amended, on the state of `TestRemoveOldest` after two `Add` calls
(maximum 20, both entries of 10 bytes): the `Add` of the 24-byte entry
`("big", "twenty-one bytes long")` ends after three `RemoveOldest` calls and
leaves the cache empty. -/
theorem LRU.add_terminates_witness :
    LRU.Reachable LRU.testCache2 ∧ (0 : Int) ≤ LRU.testCache2.maxBytes ∧
    (∃ n c1, LRU.Add LRU.testCache2 "big" "twenty-one bytes long" = some c1 ∧
      n ≤ LRU.testCache2.ll.length + 1 ∧
      c1 = Nat.iterate LRU.RemoveOldest n
        (LRU.addEntry LRU.testCache2 "big" "twenty-one bytes long") ∧
      ¬ LRU.overBudget c1 ∧
      (∀ e ∈ c1.ll, e.key ≠ "big" → e ∈ LRU.testCache2.ll) ∧
      (0 < LRU.testCache2.maxBytes →
        LRU.testCache2.maxBytes
          < (("big".utf8ByteSize : Nat) : Int)
            + ((LRU.Value.Len "twenty-one bytes long" : Nat) : Int) →
        ¬ LRU.Resident c1 "big" ∧ (∀ e ∈ c1.ll, e.key ≠ "big") ∧
          ∀ e ∈ c1.ll, e ∈ LRU.testCache2.ll)) ∧
    (LRU.Add LRU.testCache2 "big" "twenty-one bytes long").map
        (fun c1 => (LRU.Len c1, c1.nBytes, c1.evicted))
      = some (0, 0, [("key1", "value1"), ("key2", "value2"),
          ("big", "twenty-one bytes long")]) :=
  ⟨LRU.testCache2_reachable, by decide,
    LRU.add_terminates LRU.testCache2 LRU.testCache2_reachable (by decide) "big"
      "twenty-one bytes long",
    by decide⟩

namespace LRU

variable {V : Type}

/-- With the maximum 0 the eviction loop of `Add` does nothing. -/
theorem Add_unbounded [Value V] {c : Cache V} (h : c.maxBytes = 0) (k : String) (v : V) :
    Add c k v = some (addEntry c k v) := by
  have hm : (addEntry c k v).maxBytes = 0 := by rw [addEntry_maxBytes]; exact h
  simp only [Add, evictLoop]
  rw [if_neg (fun hc => hc.1 hm)]

theorem latest_isSome (ops : List (Op V)) (k : String) :
    (∃ v, latest ops k = some v) ↔ k ∈ addedKeys ops := by
  induction ops with
  | nil => simp [latest, addedKeys]
  | cons op ops ih =>
    cases op with
    | add key value =>
      simp only [latest, addedKeys, List.mem_cons]
      cases hl : latest ops k with
      | some w =>
        have : k ∈ addedKeys ops := ih.1 ⟨w, hl⟩
        simp [this]
      | none =>
        have hn : k ∉ addedKeys ops := by
          intro hk
          obtain ⟨w, hw⟩ := ih.2 hk
          rw [hl] at hw
          exact absurd hw (by simp)
        by_cases hkk : k = key
        · simp [hkk]
        · simp [hkk, hn]
    | get key => simpa [latest, addedKeys] using ih
    | removeOldest => simpa [latest, addedKeys] using ih

/-- Without a maximum and without `RemoveOldest` calls, a sequence of calls
returns, calls the callback no more, and leaves in the list exactly the latest
value of every key added, next to the entries of the start whose key was not
added again. -/
theorem run_unbounded [Value V] (ops : List (Op V))
    (hops : ops.all (fun op => !op.isRemoveOldest) = true) :
    ∀ c0 : Cache V, Inv c0 → c0.maxBytes = 0 →
      ∃ c, run c0 ops = some c ∧ Inv c ∧ c.evicted = c0.evicted ∧
        ∀ k v, (k, v) ∈ entries c.ll ↔
          (latest ops k = some v ∨ (latest ops k = none ∧ (k, v) ∈ entries c0.ll)) := by
  induction ops with
  | nil =>
    intro c0 h0 _
    exact ⟨c0, rfl, h0, rfl, fun k v => by simp [latest]⟩
  | cons op ops ih =>
    intro c0 h0 hM
    rw [List.all_cons, Bool.and_eq_true] at hops
    cases op with
    | removeOldest => simp [Op.isRemoveOldest] at hops
    | add key value =>
      have hs : step c0 (.add key value) = some (addEntry c0 key value) :=
        Add_unbounded hM key value
      obtain ⟨c, h1, h2, h3, h4⟩ := ih hops.2 (addEntry c0 key value) (h0.addEntry key value)
        (by rw [addEntry_maxBytes]; exact hM)
      refine ⟨c, by simp only [run, hs]; exact h1, h2, by rw [h3, addEntry_evicted], ?_⟩
      intro k v
      rw [h4, addEntry_entries h0]
      simp only [latest, List.mem_append, List.mem_filter, List.mem_singleton,
        decide_eq_true_eq, Prod.mk.injEq]
      cases hl : latest ops k with
      | some w => simp
      | none =>
        by_cases hkk : k = key
        · subst hkk
          simp
          exact eq_comm
        · simp [hkk]
    | get key =>
      have hs : step c0 (.get key) = some (Get c0 key).1 := rfl
      obtain ⟨c, h1, h2, h3, h4⟩ := ih hops.2 (Get c0 key).1 (h0.Get key)
        (by rw [(Get_fields c0 key).1]; exact hM)
      have hev : (Get c0 key).1.evicted = c0.evicted := by
        unfold Get
        split
        · split <;> rfl
        · rfl
      have hmem : ∀ p, p ∈ entries (Get c0 key).1.ll ↔ p ∈ entries c0.ll := by
        intro p
        by_cases hk : ∃ e ∈ c0.ll, e.key = key
        · obtain ⟨e, he, rfl⟩ := hk
          obtain ⟨l1, l2, h5, h6⟩ := Get_hit h0 he
          rw [h6, h5]
          show p ∈ entries (l1 ++ l2 ++ [e]) ↔ p ∈ entries (l1 ++ e :: l2)
          simp only [entries, List.map_append, List.map_cons, List.map_nil, List.mem_append,
            List.mem_cons, List.mem_singleton, List.not_mem_nil, or_false]
          tauto
        · rw [Get_miss h0 (by simpa using hk)]
      refine ⟨c, by simp only [run, hs]; exact h1, h2, by rw [h3, hev], ?_⟩
      intro k v
      rw [h4, hmem]
      simp only [latest]

theorem addedKeys_append (l1 l2 : List (Op V)) :
    addedKeys (l1 ++ l2) = addedKeys l1 ++ addedKeys l2 := by
  induction l1 with
  | nil => rfl
  | cons op l1 ih =>
    rw [List.cons_append, addedKeys_cons, addedKeys_cons op l1, ih, List.append_assoc]

/-- From `New(0, cb)`, without `RemoveOldest` calls: the summary of
`run_unbounded` in terms of the index and of `Get`. -/
theorem run_from_New_unbounded [Value V] (onEvicted : Bool) (ops : List (Op V))
    (hops : ops.all (fun op => !op.isRemoveOldest) = true) :
    ∃ c, run (New 0 onEvicted) ops = some c ∧ c.evicted = [] ∧
      (∀ k v, (k, v) ∈ entries c.ll ↔ latest ops k = some v) ∧
      (∀ k, Resident c k ↔ k ∈ addedKeys ops) ∧
      (∀ k, (Get c k).2 = latest ops k) ∧
      Len c = (addedKeys ops).dedup.length := by
  obtain ⟨c, h1, h2, h3, h4⟩ := run_unbounded ops hops (New 0 onEvicted) (Inv.New 0 onEvicted) rfl
  have hent : ∀ k v, (k, v) ∈ entries c.ll ↔ latest ops k = some v := by
    intro k v
    rw [h4]
    simp [New, entries]
  have hres : ∀ k, Resident c k ↔ k ∈ addedKeys ops := by
    intro k
    rw [h2.resident_iff, ← latest_isSome]
    constructor
    · rintro ⟨e, he, rfl⟩
      exact ⟨e.value, (hent _ _).1 (List.mem_map.2 ⟨e, he, rfl⟩)⟩
    · rintro ⟨v, hv⟩
      obtain ⟨e, he, hek⟩ := List.mem_map.1 ((hent k v).2 hv)
      exact ⟨e, he, congrArg Prod.fst hek⟩
  refine ⟨c, h1, h3, hent, hres, ?_, ?_⟩
  · intro k
    by_cases hk : ∃ e ∈ c.ll, e.key = k
    · obtain ⟨e, he, rfl⟩ := hk
      obtain ⟨l1, l2, _, h6⟩ := Get_hit h2 he
      rw [h6]
      exact ((hent _ _).1 (List.mem_map.2 ⟨e, he, rfl⟩)).symm
    · rw [Get_miss h2 (by simpa using hk)]
      cases hl : latest ops k with
      | none => rfl
      | some v =>
        obtain ⟨e, he, hek⟩ := List.mem_map.1 ((hent k v).2 hl)
        exact absurd ⟨e, he, congrArg Prod.fst hek⟩ hk
  · have hperm : (c.ll.map (fun e => e.key)).Perm (addedKeys ops).dedup := by
      rw [List.perm_ext_iff_of_nodup h2.keys (List.nodup_dedup _)]
      intro k
      rw [List.mem_dedup, ← hres k, h2.resident_iff]
      simp
    have := hperm.length_eq
    rw [List.length_map] at this
    exact this

end LRU

/-- C13: on a cache made by `New(0, cb)`, every sequence of `Add` and `Get`
calls returns, and after it: the callback has never been called; the resident
keys are exactly the keys ever added, and `Get` returns for each its latest
value; `Len()` is the number of distinct keys added. No entry is ever removed:
the same holds after each prefix of the sequence, and every key resident after
a prefix is resident at the end. -/
theorem LRU.maximum_zero_never_evicts {V : Type} [LRU.Value V] (onEvicted : Bool)
    (ops : List (LRU.Op V))
    (hops : ops.all (fun op => !op.isRemoveOldest) = true) :
    ∃ c, LRU.run (LRU.New 0 onEvicted) ops = some c ∧ c.evicted = [] ∧
      (∀ k, LRU.Resident c k ↔ k ∈ LRU.addedKeys ops) ∧
      (∀ k, (LRU.Get c k).2 = LRU.latest ops k) ∧
      LRU.Len c = (LRU.addedKeys ops).dedup.length ∧
      ∀ n, ∃ c1, LRU.run (LRU.New 0 onEvicted) (ops.take n) = some c1 ∧ c1.evicted = [] ∧
        LRU.Len c1 = (LRU.addedKeys (ops.take n)).dedup.length ∧
        ∀ k, LRU.Resident c1 k → LRU.Resident c k := by
  obtain ⟨c, h1, h2, _, h4, h5, h6⟩ := LRU.run_from_New_unbounded onEvicted ops hops
  refine ⟨c, h1, h2, h4, h5, h6, ?_⟩
  intro n
  have hn : (ops.take n).all (fun op => !op.isRemoveOldest) = true := by
    rw [List.all_eq_true] at hops ⊢
    exact fun x hx => hops x (List.mem_of_mem_take hx)
  obtain ⟨c1, k1, k2, _, k4, _, k6⟩ := LRU.run_from_New_unbounded onEvicted (ops.take n) hn
  refine ⟨c1, k1, k2, k6, ?_⟩
  intro k hk
  rw [h4]
  have := (k4 k).1 hk
  have hsplit : LRU.addedKeys ops
      = LRU.addedKeys (ops.take n) ++ LRU.addedKeys (ops.drop n) := by
    rw [← LRU.addedKeys_append, List.take_append_drop]
  rw [hsplit]
  exact List.mem_append_left _ this

/-- C13 on `New(0, cb)` with a callback and the calls `Add("key1", "value1")`,
`Add("key2", "value2")`, `Get("key1")`, `Add("key1", "other")`,
`Add("key3", "value3")`: three keys stay, `key1` with its latest value, and the
callback has seen nothing. -/
theorem LRU.maximum_zero_never_evicts_witness :
    ∃ c : LRU.Cache String,
      LRU.run (LRU.New 0 true)
        [.add "key1" "value1", .add "key2" "value2", .get "key1", .add "key1" "other",
         .add "key3" "value3"] = some c ∧
      c.evicted = [] ∧ LRU.Len c = 3 ∧ (LRU.Get c "key1").2 = some "other" ∧
      LRU.Resident c "key2" :=
  let ⟨c, h1, h2, h3, h4, h5, _⟩ := LRU.maximum_zero_never_evicts (V := String) true
    [.add "key1" "value1", .add "key2" "value2", .get "key1", .add "key1" "other",
     .add "key3" "value3"] (by decide)
  ⟨c, h1, h2, h5.trans (by decide), (h4 "key1").trans (by decide), (h3 "key2").2 (by decide)⟩

/-- C14: the calls of `TestOnEvicted` on `New(0, callback)` leave `key1`, `key2`
and `key3` resident and the callback has been called with nothing, so the
test's flag stays false; with the maximum 10 instead of 0 the same calls evict
`key1` and then `key2`, and the callback sees `("key2", "value2")`. -/
theorem LRU.test_on_evicted_sees_no_eviction :
    (LRU.run (LRU.New 0 true)
        [.add "key1" "value1", .add "key2" "value2", .add "key3" "value3"]).map
      (fun c => (c.evicted, LRU.entries c.ll, c.nBytes))
      = some ([], [("key1", "value1"), ("key2", "value2"), ("key3", "value3")], 30) ∧
    (LRU.run (LRU.New 10 true)
        [.add "key1" "value1", .add "key2" "value2", .add "key3" "value3"]).map
      (fun c => (c.evicted, LRU.entries c.ll, c.nBytes))
      = some ([("key1", "value1"), ("key2", "value2")], [("key3", "value3")], 10) := by
  decide

namespace ConsistenHash

theorem assignAll_append (hm : Nat → Option String) (l1 l2 : List (Nat × String)) :
    assignAll hm (l1 ++ l2) = assignAll (assignAll hm l1) l2 := by
  simp [assignAll, List.foldl_append]

/-- The last assignment to a position decides its label. -/
theorem assignAll_last (hm : Nat → Option String) (pre post : List (Nat × String))
    (pos : Nat) (key : String) (hpost : ∀ node ∈ post, node.1 ≠ pos) :
    assignAll hm (pre ++ (pos, key) :: post) pos = some key := by
  rw [assignAll_append]
  generalize assignAll hm pre = hm1
  have h1 : assignAll hm1 [(pos, key)] pos = some key := by simp [assignAll]
  have key2 : ∀ (post : List (Nat × String)) (f : Nat → Option String),
      (∀ node ∈ post, node.1 ≠ pos) → assignAll f post pos = f pos := by
    intro post
    induction post with
    | nil => intro f _; rfl
    | cons a post ih =>
      intro f hp
      have ha : pos ≠ a.1 := fun h => hp a (List.mem_cons_self _ _) h.symm
      show assignAll (fun h => if h = a.1 then some a.2 else f h) post pos = f pos
      rw [ih _ (fun node hn => hp node (List.mem_cons_of_mem _ hn))]
      simp [ha]
  show assignAll (assignAll hm1 [(pos, key)]) post pos = some key
  rw [key2 post _ hpost, h1]

theorem foldl_addReplica_nodes (key : String) (is : List Nat) :
    ∀ m : Map,
      (is.foldl (fun m i => addReplica m key i) m).keys
        = m.keys ++ is.map (fun i => m.hash (key ++ Nat.repr i) % 4294967296) ∧
      (is.foldl (fun m i => addReplica m key i) m).hashMap
        = assignAll m.hashMap
            (is.map (fun i => (m.hash (key ++ Nat.repr i) % 4294967296, key))) ∧
      (is.foldl (fun m i => addReplica m key i) m).hash = m.hash ∧
      (is.foldl (fun m i => addReplica m key i) m).replicas = m.replicas := by
  induction is with
  | nil => intro m; simp [assignAll]
  | cons i is ih =>
    intro m
    obtain ⟨h1, h2, h3, h4⟩ := ih (addReplica m key i)
    rw [List.foldl_cons]
    refine ⟨?_, ?_, h3, h4⟩
    · rw [h1]; simp [addReplica]
    · rw [h2]; simp [addReplica, assignAll]

theorem foldl_addMember_nodes (keys : List String) :
    ∀ m : Map,
      (keys.foldl addMember m).keys
        = m.keys ++ (virtualNodes m.hash m.replicas.toNat keys).map Prod.fst ∧
      (keys.foldl addMember m).hashMap
        = assignAll m.hashMap (virtualNodes m.hash m.replicas.toNat keys) ∧
      (keys.foldl addMember m).hash = m.hash ∧
      (keys.foldl addMember m).replicas = m.replicas := by
  induction keys with
  | nil => intro m; simp [virtualNodes, assignAll]
  | cons k keys ih =>
    intro m
    obtain ⟨a1, a2, a3, a4⟩ := foldl_addReplica_nodes k (List.range m.replicas.toNat) m
    obtain ⟨h1, h2, h3, h4⟩ := ih (addMember m k)
    have e3 : (addMember m k).hash = m.hash := a3
    have e4 : (addMember m k).replicas = m.replicas := a4
    have e1 : (addMember m k).keys
        = m.keys ++ (List.range m.replicas.toNat).map
            (fun i => m.hash (k ++ Nat.repr i) % 4294967296) := a1
    have e2 : (addMember m k).hashMap
        = assignAll m.hashMap ((List.range m.replicas.toNat).map
            (fun i => (m.hash (k ++ Nat.repr i) % 4294967296, k))) := a2
    rw [List.foldl_cons]
    rw [e3, e4] at h1 h2
    refine ⟨?_, ?_, h3.trans e3, h4.trans e4⟩
    · rw [h1, e1]
      simp [virtualNodes, List.map_map, Function.comp_def]
    · rw [h2, e2, ← assignAll_append]
      simp [virtualNodes]

/-- The ring after `New` and `Add` calls holds, up to the order made by
sorting, the positions of all virtual nodes of the members listed, and its
index is the result of assigning them in the order of insertion. -/
theorem ringOf_nodes (replicas : Int) (fn : Option Hash) (adds : List (List String)) :
    (ringOf replicas fn adds).keys.Perm
      ((virtualNodes (fn.getD ChecksumIEEE) replicas.toNat adds.flatten).map Prod.fst) ∧
    (ringOf replicas fn adds).hashMap
      = assignAll (fun _ => none)
          (virtualNodes (fn.getD ChecksumIEEE) replicas.toNat adds.flatten) := by
  have key : ∀ (adds : List (List String)) (m : Map),
      (adds.foldl Add m).keys.Perm
        (m.keys ++ (virtualNodes m.hash m.replicas.toNat adds.flatten).map Prod.fst) ∧
      (adds.foldl Add m).hashMap
        = assignAll m.hashMap (virtualNodes m.hash m.replicas.toNat adds.flatten) := by
    intro adds
    induction adds with
    | nil => intro m; simp [virtualNodes, assignAll]
    | cons a adds ih =>
      intro m
      obtain ⟨a1, a2, a3, a4⟩ := foldl_addMember_nodes a m
      have e3 : (Add m a).hash = m.hash := a3
      have e4 : (Add m a).replicas = m.replicas := a4
      have e2 : (Add m a).hashMap
          = assignAll m.hashMap (virtualNodes m.hash m.replicas.toNat a) := a2
      have e1 : (Add m a).keys.Perm
          (m.keys ++ (virtualNodes m.hash m.replicas.toNat a).map Prod.fst) := by
        show ((a.foldl addMember m).keys.insertionSort (· ≤ ·)).Perm _
        rw [← a1]
        exact List.perm_insertionSort _ _
      obtain ⟨h1, h2⟩ := ih (Add m a)
      rw [e3, e4] at h1 h2
      rw [List.foldl_cons]
      have hv : virtualNodes m.hash m.replicas.toNat (a :: adds).flatten
          = virtualNodes m.hash m.replicas.toNat a
            ++ virtualNodes m.hash m.replicas.toNat adds.flatten := by
        simp [virtualNodes]
      refine ⟨?_, ?_⟩
      · rw [hv, List.map_append, ← List.append_assoc]
        exact h1.trans (List.Perm.append_right _ e1)
      · rw [h2, e2, hv, assignAll_append]
  obtain ⟨h1, h2⟩ := key adds (New replicas fn)
  exact ⟨by simpa [New] using h1, h2⟩

theorem mem_virtualNodes {hash : Hash} {replicas : Nat} {members : List String}
    {pos : Nat} {key : String} :
    (pos, key) ∈ virtualNodes hash replicas members ↔
      key ∈ members ∧ ∃ i, i < replicas ∧ hash (key ++ Nat.repr i) % 4294967296 = pos := by
  simp only [virtualNodes, List.mem_flatMap, List.mem_map, List.mem_range, Prod.mk.injEq]
  constructor
  · rintro ⟨k, hk, i, hi, h1, h2⟩
    subst h2
    exact ⟨hk, i, hi, h1⟩
  · rintro ⟨hk, i, hi, h1⟩
    exact ⟨key, hk, i, hi, h1, rfl⟩

/-- A label of the index comes from an assignment. -/
theorem assignAll_mem (nodes : List (Nat × String)) :
    ∀ (hm : Nat → Option String) (pos : Nat) (key : String),
      assignAll hm nodes pos = some key → (pos, key) ∈ nodes ∨ hm pos = some key := by
  induction nodes with
  | nil => intro hm pos key h; exact Or.inr h
  | cons a nodes ih =>
    intro hm pos key h
    have h1 : assignAll (fun h => if h = a.1 then some a.2 else hm h) nodes pos = some key := h
    rcases ih _ pos key h1 with h2 | h2
    · exact Or.inl (List.mem_cons_of_mem _ h2)
    · by_cases hp : pos = a.1
      · simp only [hp, if_true] at h2
        left
        rw [hp, ← Option.some.inj h2]
        exact List.mem_cons_self _ _
      · simp only [hp, if_false] at h2
        exact Or.inr h2

end ConsistenHash

/-- C11, as stated, fails when virtual nodes of different members collide: with
the decimal hash, replication 3 and the distinct members `"2"` and `"02"`, the
three positions 20, 21, 22 of `"2"` are in the sequence, and the index labels
each of them with `"02"`, not with `"2"`. -/
theorem ConsistenHash.colliding_member_loses_its_label :
    ["2", "02"].Nodup ∧
    (List.range 3).map (fun i => ConsistenHash.decimalHash ("2" ++ Nat.repr i) % 4294967296)
      = [20, 21, 22] ∧
    ConsistenHash.collidingRing.keys = [20, 20, 21, 21, 22, 22] ∧
    [20, 21, 22].map ConsistenHash.collidingRing.hashMap
      = [some "02", some "02", some "02"] ∧
    ConsistenHash.collidingRing.hashMap 20 ≠ some "2" := by
  decide

/-- C11, amended: on every ring with replication `R` made by `Add` calls
listing the members `S`, the position sequence is a rearrangement of the
positions `h(m ++ decimal(i))` of all members `m` and all `i` in `[0, R)`, one
entry for each, equal positions repeated. Each such position is in the sequence
and is labelled with a member that has a virtual node there: with the member
of the virtual node inserted last at that position, hence with `m` itself when
no virtual node of another member shares the position. -/
theorem ConsistenHash.virtual_nodes_present_last_label_wins (replicas : Int)
    (fn : Option ConsistenHash.Hash) (adds : List (List String)) :
    (ConsistenHash.ringOf replicas fn adds).keys.Perm
      (adds.flatten.flatMap (fun m => (List.range replicas.toNat).map (fun i =>
        (fn.getD ConsistenHash.ChecksumIEEE) (m ++ Nat.repr i) % 4294967296))) ∧
    (∀ m ∈ adds.flatten, ∀ i, i < replicas.toNat →
      (fn.getD ConsistenHash.ChecksumIEEE) (m ++ Nat.repr i) % 4294967296
        ∈ (ConsistenHash.ringOf replicas fn adds).keys ∧
      ∃ m1 ∈ adds.flatten,
        (ConsistenHash.ringOf replicas fn adds).hashMap
          ((fn.getD ConsistenHash.ChecksumIEEE) (m ++ Nat.repr i) % 4294967296) = some m1 ∧
        ∃ j, j < replicas.toNat ∧
          (fn.getD ConsistenHash.ChecksumIEEE) (m1 ++ Nat.repr j) % 4294967296
            = (fn.getD ConsistenHash.ChecksumIEEE) (m ++ Nat.repr i) % 4294967296) ∧
    (∀ m ∈ adds.flatten, ∀ i, i < replicas.toNat →
      (∀ m1 ∈ adds.flatten, ∀ j, j < replicas.toNat →
        (fn.getD ConsistenHash.ChecksumIEEE) (m1 ++ Nat.repr j) % 4294967296
          = (fn.getD ConsistenHash.ChecksumIEEE) (m ++ Nat.repr i) % 4294967296 → m1 = m) →
      (ConsistenHash.ringOf replicas fn adds).hashMap
        ((fn.getD ConsistenHash.ChecksumIEEE) (m ++ Nat.repr i) % 4294967296) = some m) ∧
    (∀ pre post pos m,
      ConsistenHash.virtualNodes (fn.getD ConsistenHash.ChecksumIEEE) replicas.toNat
        adds.flatten = pre ++ (pos, m) :: post →
      (∀ node ∈ post, node.1 ≠ pos) →
      (ConsistenHash.ringOf replicas fn adds).hashMap pos = some m) := by
  obtain ⟨hperm, hmap⟩ := ConsistenHash.ringOf_nodes replicas fn adds
  have hfst : (ConsistenHash.virtualNodes (fn.getD ConsistenHash.ChecksumIEEE) replicas.toNat
      adds.flatten).map Prod.fst
      = adds.flatten.flatMap (fun m => (List.range replicas.toNat).map (fun i =>
        (fn.getD ConsistenHash.ChecksumIEEE) (m ++ Nat.repr i) % 4294967296)) := by
    simp [ConsistenHash.virtualNodes, List.map_flatMap, List.map_map, Function.comp_def]
  have hpres : ∀ m ∈ adds.flatten, ∀ i, i < replicas.toNat →
      (fn.getD ConsistenHash.ChecksumIEEE) (m ++ Nat.repr i) % 4294967296
        ∈ (ConsistenHash.ringOf replicas fn adds).keys ∧
      ∃ m1 ∈ adds.flatten,
        (ConsistenHash.ringOf replicas fn adds).hashMap
          ((fn.getD ConsistenHash.ChecksumIEEE) (m ++ Nat.repr i) % 4294967296) = some m1 ∧
        ∃ j, j < replicas.toNat ∧
          (fn.getD ConsistenHash.ChecksumIEEE) (m1 ++ Nat.repr j) % 4294967296
            = (fn.getD ConsistenHash.ChecksumIEEE) (m ++ Nat.repr i) % 4294967296 := by
    intro m hm i hi
    have hnode : ((fn.getD ConsistenHash.ChecksumIEEE) (m ++ Nat.repr i) % 4294967296, m)
        ∈ ConsistenHash.virtualNodes (fn.getD ConsistenHash.ChecksumIEEE) replicas.toNat
          adds.flatten := ConsistenHash.mem_virtualNodes.2 ⟨hm, i, hi, rfl⟩
    have hin : (fn.getD ConsistenHash.ChecksumIEEE) (m ++ Nat.repr i) % 4294967296
        ∈ (ConsistenHash.ringOf replicas fn adds).keys :=
      hperm.mem_iff.2 (List.mem_map.2 ⟨_, hnode, rfl⟩)
    obtain ⟨_, _, _, _, hcov⟩ := ConsistenHash.ringOf_spec replicas fn adds
    obtain ⟨s, hs1, hs2⟩ := hcov _ hin
    refine ⟨hin, s, hs1, hs2, ?_⟩
    rw [hmap] at hs2
    rcases ConsistenHash.assignAll_mem _ _ _ _ hs2 with h1 | h1
    · exact (ConsistenHash.mem_virtualNodes.1 h1).2
    · exact absurd h1 (by simp)
  refine ⟨hfst ▸ hperm, hpres, ?_, ?_⟩
  · intro m hm i hi huniq
    obtain ⟨_, m1, hm1, hlab, j, hj, hpos⟩ := hpres m hm i hi
    rw [hlab, huniq m1 hm1 j hj hpos]
  · intro pre post pos m hsplit hpost
    rw [hmap, hsplit]
    exact ConsistenHash.assignAll_last _ pre post pos m hpost

/-- C11, amended, on the ring of the scenario (decimal hash, replication 3,
members `"6"`, `"4"`, `"2"`, no collisions): position 41 of member `"4"` is in
the sequence and is labelled `"4"`. -/
theorem ConsistenHash.virtual_nodes_present_last_label_wins_witness :
    ConsistenHash.decimalHash ("4" ++ Nat.repr 1) % 4294967296 = 41 ∧
    (41 ∈ (ConsistenHash.ringOf 3 (some ConsistenHash.decimalHash) [["6", "4", "2"]]).keys ∧
      ∃ m1 ∈ [["6", "4", "2"]].flatten,
        (ConsistenHash.ringOf 3 (some ConsistenHash.decimalHash) [["6", "4", "2"]]).hashMap 41
          = some m1 ∧
        ∃ j, j < (3 : Int).toNat ∧
          ConsistenHash.decimalHash (m1 ++ Nat.repr j) % 4294967296 = 41) ∧
    (ConsistenHash.ringOf 3 (some ConsistenHash.decimalHash) [["6", "4", "2"]]).hashMap 41
      = some "4" :=
  ⟨by decide,
    (ConsistenHash.virtual_nodes_present_last_label_wins 3 (some ConsistenHash.decimalHash)
      [["6", "4", "2"]]).2.1 "4" (by decide) 1 (by decide),
    (ConsistenHash.virtual_nodes_present_last_label_wins 3 (some ConsistenHash.decimalHash)
      [["6", "4", "2"]]).2.2.1 "4" (by decide) 1 (by decide) (by decide)⟩

namespace MyCache

theorem GroupOK.lruOrNew {g : Group} (h : GroupOK g) :
    LRU.Inv (g.mainCache.lru.getD (LRU.New g.mainCache.cacheBytes false)) ∧
    (g.mainCache.lru.getD (LRU.New g.mainCache.cacheBytes false)).maxBytes
      = g.mainCache.cacheBytes := by
  cases hl : g.mainCache.lru with
  | none => exact ⟨LRU.Inv.New _ _, rfl⟩
  | some l => exact h.lru l hl

/-- A key that is not cached is in no entry of the LRU that `add` works on. -/
theorem GroupOK.not_cached {g : Group} (h : GroupOK g) {k : String}
    (hk : g.cached k = false) :
    ∀ e ∈ (g.mainCache.lru.getD (LRU.New g.mainCache.cacheBytes false)).ll, e.key ≠ k := by
  intro e he hek
  cases hl : g.mainCache.lru with
  | none => rw [hl] at he; simp [LRU.New] at he
  | some l =>
    rw [hl] at he
    have hres : LRU.Resident l k := ((h.lru l hl).1.resident_iff k).2 ⟨e, he, hek⟩
    simp only [Group.cached, hl] at hk
    unfold LRU.Resident at hres
    rw [hk] at hres
    exact absurd hres (by simp)

theorem cache_get_miss {g : Group} (h : GroupOK g) {k : String} (hk : g.cached k = false) :
    g.mainCache.get k = (g.mainCache, none) := by
  have hmiss := h.not_cached hk
  unfold cache.get
  cases hl : g.mainCache.lru with
  | none => rfl
  | some l =>
    rw [hl] at hmiss
    have := LRU.Get_miss (h.lru l hl).1 hmiss
    simp only [this]
    rw [← hl]

/-- The method `Group.getLocally`, with `populateCache` and `cache.add` unfolded. -/
theorem getLocally_eq (g : Group) (k : String) :
    g.getLocally k =
      match g.getter k with
      | .error err => some (.error err, { g with loads := g.loads ++ [k] })
      | .ok bytes =>
        (LRU.Add (g.mainCache.lru.getD (LRU.New g.mainCache.cacheBytes false)) k
            ({ b := bytes } : ByteView)).map
          (fun l => (.ok { b := bytes },
            { g with
              loads := g.loads ++ [k]
              mainCache := { g.mainCache with lru := some l } })) := by
  unfold Group.getLocally
  cases hg : g.getter k with
  | error err => rfl
  | ok bytes =>
    simp only [Group.populateCache, cache.add, cloneBytes]
    cases hadd : LRU.Add (g.mainCache.lru.getD (LRU.New g.mainCache.cacheBytes false)) k
        ({ b := bytes } : ByteView) with
    | none => rfl
    | some l => rfl

/-- A `Get` of a key that is not cached is the load of the key. -/
theorem Get_uncached {g : Group} (h : GroupOK g) {k : String} (hk : k ≠ "")
    (hmiss : g.cached k = false) : g.Get k = g.load k := by
  unfold Group.Get
  rw [if_neg hk]
  simp only [cache_get_miss h hmiss]

/-- The path of `Get` for a key that is not cached when no peer answers: no
picker, no peer for the key, or a peer whose `Get` fails. The group loads
locally. -/
theorem Get_local {g : Group} (h : GroupOK g) {k : String} (hk : k ≠ "")
    (hmiss : g.cached k = false)
    (hloc : g.peers = none ∨ ∃ picker, g.peers = some picker ∧
      (picker k = none ∨ ∃ peer err, picker k = some peer ∧ peer g.name k = .error err)) :
    g.Get k = (g.getLocally k).map (fun r => (r.1, r.2.loaded)) := by
  rw [Get_uncached h hk hmiss]
  unfold Group.load
  dsimp only
  rw [Do_idle h.idle]
  rcases hloc with hp | ⟨picker, hp, hpick | ⟨peer, err, hpick, hfail⟩⟩
  · simp only [hp]
    cases g.getLocally k with
    | none => rfl
    | some r => rfl
  · simp only [hp, hpick]
    cases g.getLocally k with
    | none => rfl
    | some r => rfl
  · simp only [hp, hpick, getFromPeer, hfail]
    cases g.getLocally k with
    | none => rfl
    | some r => rfl

/-- The path of `Get` for a key that is not cached when the peer for the key
answers: the value of the peer is returned and nothing is loaded or cached. -/
theorem Get_peer {g : Group} (h : GroupOK g) {k : String} (hk : k ≠ "")
    (hmiss : g.cached k = false) {picker : PeerPicker} (hp : g.peers = some picker)
    {peer : PeerGetter} (hpick : picker k = some peer) {b : List UInt8}
    (hok : peer g.name k = .ok b) :
    g.Get k = some (.ok { b := b }, g.loaded) := by
  rw [Get_uncached h hk hmiss]
  unfold Group.load
  dsimp only
  rw [Do_idle h.idle]
  simp only [hp, hpick, getFromPeer, hok, Group.loaded]

/-- The path of `Get` on a cached key: the value of the LRU; nothing else of
the group changes. -/
theorem Get_cached {g : Group} (h : GroupOK g) {k : String} (hk : k ≠ "")
    (hc : g.cached k = true) :
    ∃ l e, g.mainCache.lru = some l ∧ e ∈ l.ll ∧ e.key = k ∧
      g.Get k = some (.ok e.value,
        { g with mainCache := { g.mainCache with lru := some (LRU.Get l k).1 } }) := by
  cases hl : g.mainCache.lru with
  | none => simp [Group.cached, hl] at hc
  | some l =>
    simp only [Group.cached, hl] at hc
    obtain ⟨e, he, hek⟩ := ((h.lru l hl).1.resident_iff k).1 hc
    obtain ⟨l1, l2, _, h2⟩ := LRU.Get_hit (h.lru l hl).1 he
    rw [hek] at h2
    refine ⟨l, e, rfl, he, hek, ?_⟩
    unfold Group.Get
    rw [if_neg hk]
    unfold cache.get
    simp only [hl, h2]

/-- A local load that returns keeps the group in order. -/
theorem getLocally_ok {g g2 : Group} (h : GroupOK g) {k : String}
    {r : Except Error ByteView} (hg : g.getLocally k = some (r, g2)) :
    GroupOK g2.loaded ∧ g2.loaded.peers = g.peers ∧ g2.loaded.getter = g.getter ∧
      g2.loaded.name = g.name ∧
      g2.loaded.mainCache.cacheBytes = g.mainCache.cacheBytes := by
  rw [getLocally_eq] at hg
  cases hgk : g.getter k with
  | error err =>
    rw [hgk] at hg
    have := (Prod.mk.inj (Option.some.inj hg)).2
    subst this
    exact ⟨⟨Or.inr rfl, h.lru⟩, rfl, rfl, rfl, rfl⟩
  | ok bytes =>
    rw [hgk] at hg
    simp only at hg
    cases hadd : LRU.Add (g.mainCache.lru.getD (LRU.New g.mainCache.cacheBytes false)) k
        ({ b := bytes } : ByteView) with
    | none => rw [hadd] at hg; simp at hg
    | some l1 =>
      rw [hadd] at hg
      have := (Prod.mk.inj (Option.some.inj hg)).2
      subst this
      obtain ⟨hinv, hmax⟩ := h.lruOrNew
      obtain ⟨h1, h2, _, _⟩ := LRU.step_inv hinv
        (show LRU.step _ (.add k ⟨bytes⟩) = some l1 from hadd)
      refine ⟨⟨Or.inr rfl, ?_⟩, rfl, rfl, rfl, rfl⟩
      intro l2 hl2
      have : l2 = l1 := (Option.some.inj hl2).symm
      subst this
      exact ⟨h1, h2.trans hmax⟩

/-- Every `Get` that returns keeps the group in order, with its name, loader,
picker and budget. -/
theorem Get_ok {g g1 : Group} (h : GroupOK g) {k : String} {r : Except Error ByteView}
    (hg : g.Get k = some (r, g1)) :
    GroupOK g1 ∧ g1.peers = g.peers ∧ g1.getter = g.getter ∧ g1.name = g.name ∧
      g1.mainCache.cacheBytes = g.mainCache.cacheBytes := by
  by_cases hk : k = ""
  · unfold Group.Get at hg
    rw [if_pos hk] at hg
    have := (Prod.mk.inj (Option.some.inj hg)).2
    subst this
    exact ⟨h, rfl, rfl, rfl, rfl⟩
  · cases hc : g.cached k with
    | true =>
      obtain ⟨l, e, hl, _, _, hget⟩ := Get_cached h hk hc
      rw [hget] at hg
      have := (Prod.mk.inj (Option.some.inj hg)).2
      subst this
      refine ⟨⟨h.idle, ?_⟩, rfl, rfl, rfl, rfl⟩
      intro l1 hl1
      have : l1 = (LRU.Get l k).1 := (Option.some.inj hl1).symm
      subst this
      exact ⟨(h.lru l hl).1.Get k, (LRU.Get_fields l k).1.trans (h.lru l hl).2⟩
    | false =>
      have hlocal : (g.peers = none ∨ ∃ picker, g.peers = some picker ∧
          (picker k = none ∨ ∃ peer err, picker k = some peer ∧
            peer g.name k = .error err)) →
          GroupOK g1 ∧ g1.peers = g.peers ∧ g1.getter = g.getter ∧ g1.name = g.name ∧
            g1.mainCache.cacheBytes = g.mainCache.cacheBytes := by
        intro hloc
        rw [Get_local h hk hc hloc] at hg
        cases hgl : g.getLocally k with
        | none => rw [hgl] at hg; simp at hg
        | some r2 =>
          rw [hgl] at hg
          have := (Prod.mk.inj (Option.some.inj hg)).2
          subst this
          exact getLocally_ok h (r := r2.1) (show g.getLocally k = some (r2.1, r2.2) from hgl)
      obtain ⟨pv, hp⟩ : ∃ pv, g.peers = pv := ⟨_, rfl⟩
      cases pv with
      | none => exact hlocal (Or.inl hp)
      | some picker =>
        cases hpick : picker k with
        | none => exact hlocal (Or.inr ⟨picker, hp, Or.inl hpick⟩)
        | some peer =>
          cases hpeer : peer g.name k with
          | error err => exact hlocal (Or.inr ⟨picker, hp, Or.inr ⟨peer, err, hpick, hpeer⟩⟩)
          | ok b =>
            rw [Get_peer h hk hc hp hpick hpeer] at hg
            have := (Prod.mk.inj (Option.some.inj hg)).2
            subst this
            exact ⟨⟨Or.inr rfl, h.lru⟩, hp.symm ▸ rfl, rfl, rfl, rfl⟩

theorem NewGroup_ok (name : String) (cacheBytes : Int) (getter : Getter) :
    GroupOK (NewGroup name cacheBytes getter) :=
  ⟨Or.inl rfl, fun l hl => by simp [NewGroup] at hl⟩

theorem call_ok {g g1 : Group} (h : GroupOK g) {c : Call} (hc : g.call c = some g1) :
    GroupOK g1 := by
  cases c with
  | get key =>
    simp only [Group.call] at hc
    cases hg : g.Get key with
    | none => rw [hg] at hc; simp at hc
    | some r =>
      rw [hg] at hc
      have : r.2 = g1 := Option.some.inj hc
      subst this
      exact (Get_ok h (show g.Get key = some (r.1, r.2) from hg)).1
  | registerPeers peers =>
    simp only [Group.call, Group.RegisterPeers] at hc
    cases hp : g.peers with
    | some p => rw [hp] at hc; simp at hc
    | none =>
      rw [hp] at hc
      have := Option.some.inj hc
      subst this
      exact ⟨h.idle, h.lru⟩

theorem calls_ok {cs : List Call} {g g1 : Group} (h : GroupOK g)
    (hc : g.calls cs = some g1) : GroupOK g1 := by
  induction cs generalizing g with
  | nil =>
    have := Option.some.inj hc
    subst this
    exact h
  | cons c cs ih =>
    simp only [Group.calls] at hc
    cases hg : g.call c with
    | none => rw [hg] at hc; simp at hc
    | some g2 =>
      rw [hg] at hc
      exact ih (call_ok h hg) hc

theorem Group.Reachable.ok {g : Group} (h : g.Reachable) : GroupOK g := by
  obtain ⟨name, cacheBytes, getter, cs, hc⟩ := h
  exact calls_ok (NewGroup_ok name cacheBytes getter) hc

/-- An error that a local load returns is the error of the loader. -/
theorem getLocally_error {g g1 : Group} {k : String} {err : Error}
    (h : g.getLocally k = some (.error err, g1)) : g.getter k = .error err := by
  rw [getLocally_eq] at h
  cases hg : g.getter k with
  | error e =>
    rw [hg] at h
    have := (Prod.mk.inj (Option.some.inj h)).1
    rw [Except.error.inj this]
  | ok bytes =>
    rw [hg] at h
    simp only at h
    cases hadd : LRU.Add (g.mainCache.lru.getD (LRU.New g.mainCache.cacheBytes false)) k
        ({ b := bytes } : ByteView) with
    | none => rw [hadd] at h; simp at h
    | some l => rw [hadd] at h; simp at h

/-- An error that a load returns is the error of the loader: the error of a
peer is dropped. -/
theorem load_error {g g1 : Group} {k : String} {err : Error}
    (h : g.load k = some (.error err, g1)) : g.getter k = .error err := by
  unfold Group.load Singleflight.Do at h
  dsimp only at h
  by_cases hin : k ∈ g.loader.m.getD []
  · rw [if_pos hin] at h
    simp at h
  · rw [if_neg hin] at h
    have key : ∀ (x : Option (Except Error ByteView × Group)) (sf : Singleflight.Group),
        (match some (x, sf) with
          | none => none
          | some (none, _) => none
          | some (some (view, g1), loader) =>
            some (view, ({ g1 with loader := loader } : Group))) = some (.error err, g1) →
        ∃ g2, x = some (.error err, g2) := by
      intro x sf hx
      cases x with
      | none => simp at hx
      | some p =>
        simp only [Option.some.injEq, Prod.mk.injEq] at hx
        exact ⟨p.2, by rw [← hx.1]⟩
    obtain ⟨g2, hfn⟩ := key _ _ h
    cases hp : g.peers with
    | none =>
      simp only [hp] at hfn
      exact getLocally_error hfn
    | some picker =>
      simp only [hp] at hfn
      cases hpick : picker k with
      | none =>
        simp only [hpick] at hfn
        exact getLocally_error hfn
      | some peer =>
        simp only [hpick, getFromPeer] at hfn
        cases hpeer : peer g.name k with
        | error e =>
          simp only [hpeer] at hfn
          exact getLocally_error hfn
        | ok b =>
          simp only [hpeer] at hfn
          simp at hfn

theorem scoresGroup_reachable : scoresGroup.Reachable := ⟨"scores", 2048, db, [], rfl⟩

theorem scoresGroupRemote_reachable : scoresGroupRemote.Reachable :=
  ⟨"scores", 2048, db, [.get "Sam", .registerPeers remotePeers], rfl⟩

end MyCache

/-- C15: in every group state `Get("")` returns the error `key is required`,
in Go together with the empty `ByteView`, and the state it leaves is the state
it found: cache, recency order, picker and record of loads are untouched. For a
non-empty key the check is passed: `Get` goes on to the cache and the load, and
an error it returns is the error that the loader returned for the key. -/
theorem MyCache.empty_key_is_rejected (g : MyCache.Group) :
    g.Get "" = some (.error "key is required", g) ∧
    MyCache.goReturn (.error "key is required") = ({ b := [] }, some "key is required") ∧
    (∀ k, k ≠ "" →
      g.Get k =
        match g.mainCache.get k with
        | (c, some v) => some (.ok v, { g with mainCache := c })
        | (c, none) => MyCache.Group.load { g with mainCache := c } k) ∧
    (∀ k err g1, k ≠ "" → g.Get k = some (.error err, g1) → g.getter k = .error err) := by
  refine ⟨rfl, rfl, ?_, ?_⟩
  · intro k hk
    unfold MyCache.Group.Get
    rw [if_neg hk]
  · intro k err g1 hk hg
    unfold MyCache.Group.Get at hg
    rw [if_neg hk] at hg
    obtain ⟨c, o, hco⟩ : ∃ c o, g.mainCache.get k = (c, o) := ⟨_, _, rfl⟩
    rw [hco] at hg
    cases o with
    | some v => simp at hg
    | none => exact MyCache.load_error (g := { g with mainCache := c }) hg

/-- C15 on the group of `TestGet`: `Get("")` is rejected and leaves the group as
it is; `Get("unknown")` passes the check, and its error is the loader's
`unknown not exist`. -/
theorem MyCache.empty_key_is_rejected_witness :
    MyCache.scoresGroup.Get "" = some (.error "key is required", MyCache.scoresGroup) ∧
    (∃ g1, MyCache.scoresGroup.Get "unknown" = some (.error "unknown not exist", g1)) ∧
    MyCache.scoresGroup.getter "unknown" = .error "unknown not exist" :=
  ⟨(MyCache.empty_key_is_rejected MyCache.scoresGroup).1, ⟨_, rfl⟩,
    (MyCache.empty_key_is_rejected MyCache.scoresGroup).2.2.2 "unknown" "unknown not exist" _
      (by decide) rfl⟩

/-- C16: in a reachable group without peer picker, for a non-empty key `k` that
is not cached and a loader that returns the error `err` for `k`, `Get(k)`
returns `err`, calls the loader once and leaves the local cache as it was, `k`
not in it; the next `Get(k)` calls the loader again and returns `err` again. -/
theorem MyCache.loader_error_is_returned_and_not_cached (g : MyCache.Group)
    (h : g.Reachable) (hp : g.peers = none) (k : String) (hk : k ≠ "")
    (hmiss : g.cached k = false) (err : MyCache.Error) (hload : g.getter k = .error err) :
    ∃ g1 g2, g.Get k = some (.error err, g1) ∧ g1.mainCache = g.mainCache ∧
      g1.loads = g.loads ++ [k] ∧ g1.cached k = false ∧
      g1.Get k = some (.error err, g2) ∧ g2.mainCache = g.mainCache ∧
      g2.loads = g.loads ++ [k] ++ [k] := by
  have h1 : g.Get k
      = some (.error err, ({ g with loads := g.loads ++ [k] } : MyCache.Group).loaded) := by
    rw [MyCache.Get_local h.ok hk hmiss (Or.inl hp), MyCache.getLocally_eq, hload]
    rfl
  obtain ⟨hok1, hp1, hg1, _, _⟩ := MyCache.Get_ok h.ok h1
  have hmiss1 : (({ g with loads := g.loads ++ [k] } : MyCache.Group).loaded).cached k
      = false := hmiss
  have h2 := MyCache.Get_local hok1 hk hmiss1 (Or.inl (hp1.trans hp))
  rw [MyCache.getLocally_eq] at h2
  have hload1 : (({ g with loads := g.loads ++ [k] } : MyCache.Group).loaded).getter k
      = .error err := hload
  rw [hload1] at h2
  exact ⟨_, _, h1, rfl, rfl, hmiss, h2, rfl, rfl⟩

/-- C16 on the group of `TestGet` after `Get("Sam")`: `Get("unknown")` returns
the loader's error twice, the loader is called both times, and the cache keeps
`Sam` only. -/
theorem MyCache.loader_error_is_returned_and_not_cached_witness :
    MyCache.scoresGroupSam.peers = none ∧
    MyCache.scoresGroupSam.cached "unknown" = false ∧
    MyCache.scoresGroupSam.getter "unknown" = .error "unknown not exist" ∧
    ∃ g1 g2,
      MyCache.scoresGroupSam.Get "unknown" = some (.error "unknown not exist", g1) ∧
      g1.mainCache = MyCache.scoresGroupSam.mainCache ∧
      g1.loads = MyCache.scoresGroupSam.loads ++ ["unknown"] ∧
      g1.cached "unknown" = false ∧
      g1.Get "unknown" = some (.error "unknown not exist", g2) ∧
      g2.mainCache = MyCache.scoresGroupSam.mainCache ∧
      g2.loads = MyCache.scoresGroupSam.loads ++ ["unknown"] ++ ["unknown"] :=
  ⟨rfl, rfl, rfl,
    MyCache.loader_error_is_returned_and_not_cached MyCache.scoresGroupSam
      ⟨"scores", 2048, MyCache.db, [.get "Sam"], rfl⟩ rfl "unknown" (by decide) rfl
      "unknown not exist" rfl⟩

/-- C18, as stated, fails for the empty key: in the group of `TestGet` after
`Get("Sam")`, with a picker that names for `""` a peer answering 55, 55, the key
`""` is not cached and `Get("")` returns the error `key is required`, not a
`ByteView` of the peer's bytes. -/
theorem MyCache.peer_value_not_returned_for_empty_key :
    MyCache.scoresGroupRemote.Reachable ∧
    MyCache.scoresGroupRemote.peers = some MyCache.remotePeers ∧
    (∃ peer, MyCache.remotePeers "" = some peer ∧
      peer MyCache.scoresGroupRemote.name "" = .ok [55, 55]) ∧
    MyCache.scoresGroupRemote.cached "" = false ∧
    MyCache.scoresGroupRemote.Get ""
      = some (.error "key is required", MyCache.scoresGroupRemote) ∧
    MyCache.goReturn (.error "key is required") = ({ b := [] }, some "key is required") :=
  ⟨MyCache.scoresGroupRemote_reachable, rfl, ⟨_, rfl, rfl⟩, rfl, rfl, rfl⟩

/-- C18, amended: in a reachable group whose picker names a peer for the
non-empty key `k`, not cached, if the peer's `Get` succeeds with the bytes `b`
then `Get(k)` returns a `ByteView` of `b`, the loader is not called, and the
local cache is what it was: the same entries in the same order with the same
byte usage, `k` not among them. -/
theorem MyCache.peer_value_is_not_cached (g : MyCache.Group) (h : g.Reachable)
    (k : String) (hk : k ≠ "") (hmiss : g.cached k = false)
    (picker : MyCache.PeerPicker) (hp : g.peers = some picker)
    (peer : MyCache.PeerGetter) (hpick : picker k = some peer)
    (b : List UInt8) (hok : peer g.name k = .ok b) :
    ∃ g1, g.Get k = some (.ok { b := b }, g1) ∧ g1.mainCache = g.mainCache ∧
      g1.loads = g.loads ∧ g1.cached k = false :=
  ⟨g.loaded, MyCache.Get_peer h.ok hk hmiss hp hpick hok, rfl, rfl, hmiss⟩

/-- C18, amended, on the group of `TestGet` after `Get("Sam")`, with a picker
whose peer answers 55, 55: `Get("Tom")` returns these bytes; the loader has been
called for `Sam` only and the cache holds `Sam` only. -/
theorem MyCache.peer_value_is_not_cached_witness :
    MyCache.scoresGroupRemote.Reachable ∧
    MyCache.scoresGroupRemote.peers = some MyCache.remotePeers ∧
    (∃ g1, MyCache.scoresGroupRemote.Get "Tom" = some (.ok { b := [55, 55] }, g1) ∧
      g1.mainCache = MyCache.scoresGroupRemote.mainCache ∧
      g1.loads = MyCache.scoresGroupRemote.loads ∧ g1.cached "Tom" = false) ∧
    MyCache.scoresGroupRemote.loads = ["Sam"] ∧
    MyCache.scoresGroupRemote.mainCache.lru.map (fun l => (LRU.entries l.ll, l.nBytes))
      = some ([("Sam", { b := [53, 54, 55] })], 6) :=
  ⟨MyCache.scoresGroupRemote_reachable, rfl,
    MyCache.peer_value_is_not_cached MyCache.scoresGroupRemote
      MyCache.scoresGroupRemote_reachable "Tom" (by decide) rfl MyCache.remotePeers rfl
      (fun _ _ => .ok [55, 55]) rfl [55, 55] rfl,
    rfl, rfl⟩

/-- C19: `httpGetter.Get` puts the escaped group and the escaped key right after
the base URL, with no `/` between them. For the peer `http://localhost:8001`,
the group `scores` and the key `Tom` the URL is
`http://localhost:8001/_mycache/scoresTom`; `ServeHTTP` splits the rest of its
path `/_mycache/scoresTom` into the one part `scoresTom` and answers 400 `bad
request`, whereas the path `/_mycache/scores/Tom` gives the group and the key.
For no base URL, group and key is the URL the one with the separator. -/
theorem MyCache.request_url_has_no_separator :
    MyCache.requestURL (MyCache.peerBaseURL "http://localhost:8001" MyCache.defaultBasePath)
        "scores" "Tom" = "http://localhost:8001/_mycache/scoresTom" ∧
    MyCache.requestParts MyCache.defaultBasePath "/_mycache/scoresTom"
      = .error (400, "bad request") ∧
    MyCache.requestParts MyCache.defaultBasePath "/_mycache/scores/Tom"
      = .ok ("scores", "Tom") ∧
    ∀ baseURL group key : String,
      MyCache.requestURL baseURL group key
        = baseURL ++ MyCache.QueryEscape group ++ MyCache.QueryEscape key ∧
      MyCache.requestURL baseURL group key
        ≠ baseURL ++ MyCache.QueryEscape group ++ "/" ++ MyCache.QueryEscape key := by
  refine ⟨by decide, rfl, rfl, ?_⟩
  intro baseURL group key
  refine ⟨rfl, ?_⟩
  intro h
  have := congrArg String.length h
  simp only [MyCache.requestURL, String.length_append] at this
  have h1 : "/".length = 1 := by decide
  omega
